import Mathlib

/-!
Shallow embedding of the sparse-matrix engine in `src/main.py`
(class `SparseMatrix`), together with proofs of the specification claims.

Modelling choices:
* Python integers are `Int` (arbitrary precision).
* The Python dict `self.data : {(row, col): value}` is an association list
  `List ((Int × Int) × Int)` that preserves insertion order, together with
  the dict representation invariant `KeysNodup` (a dict never holds a key
  twice).  `dict.pop` removes the key, `dict[k] = v` overwrites in place or
  appends a fresh key at the end, exactly as `derase` / `dinsert` below do.
* Python strings are `List Char`; text helpers (`strip`, `split`,
  `startswith`, `int(...)`, f-string formatting of integers) are embedded
  as explicit functions on `List Char`.
* Methods that can raise return `Except MatrixError _`; the constructors of
  `MatrixError` correspond one-to-one to the distinct exceptions the source
  raises (same constructor = same exception type and message in the code).
* File I/O (opening the file in `load_from`, `Failed to open file`) is
  outside the model; `load_from` here receives the text content.
-/

namespace SpMat

/-- A dict key: a `(row, col)` coordinate. -/
abbrev Key := Int × Int

/-- A stored dict entry: coordinate and value. -/
abbrev Entry := Key × Int

/-- The distinct exceptions raised by `src/main.py`:
* `wrongFormat`      = `ValueError("Input file has wrong format")` (header checks)
* `invalidFormat`    = `ValueError("Invalid file format")` (body-line checks, including bounds)
* `dimensionMismatch` = `ValueError("Matrix dimensions must match")` (`__add__`/`__sub__`)
* `notAligned`       = `ValueError("Matrix dimensions not aligned for multiplication")`
* `invalidIndex`     = `IndexError("Invalid matrix index")` (`set`) -/
inductive MatrixError where
  | wrongFormat
  | invalidFormat
  | dimensionMismatch
  | notAligned
  | invalidIndex
deriving DecidableEq, Repr

/-- Dict lookup: `d.get(k)` (first occurrence; unique under `KeysNodup`). -/
def dlookup : List Entry → Key → Option Int
  | [], _ => none
  | (k, v) :: t, q => if k = q then some v else dlookup t q

/-- Dict lookup with default 0: `self.data.get((row, col), 0)`. -/
def dget (d : List Entry) (q : Key) : Int := (dlookup d q).getD 0

/-- Dict key removal: `self.data.pop((row, col), None)`. -/
def derase : List Entry → Key → List Entry
  | [], _ => []
  | (k, v) :: t, q => if k = q then t else (k, v) :: derase t q

/-- Dict assignment `self.data[(row, col)] = value`: overwrite in place,
or append the fresh key at the end (Python dicts keep insertion order). -/
def dinsert : List Entry → Key → Int → List Entry
  | [], q, w => [(q, w)]
  | (k, v) :: t, q, w => if k = q then (k, w) :: t else (k, v) :: dinsert t q w

/-- The body of `SparseMatrix.set` after the bounds check:
`if value == 0: pop  else: assign`. -/
def dset (d : List Entry) (q : Key) (w : Int) : List Entry :=
  if w = 0 then derase d q else dinsert d q w

/-- `class SparseMatrix`: fixed extents plus the entry dict. -/
structure SparseMatrix where
  rows : Int
  cols : Int
  data : List Entry
deriving DecidableEq, Repr

namespace SparseMatrix

/-- `def get(self, row, col): return self.data.get((row, col), 0)`.
Note: the source performs no bounds check here. -/
def get (M : SparseMatrix) (row col : Int) : Int := dget M.data (row, col)

/-- `0 <= row < self.rows and 0 <= col < self.cols`. -/
def InB (M : SparseMatrix) (row col : Int) : Prop :=
  0 ≤ row ∧ row < M.rows ∧ 0 ≤ col ∧ col < M.cols

instance (M : SparseMatrix) (row col : Int) : Decidable (M.InB row col) := by
  unfold InB; infer_instance

/-- `def set(self, row, col, value)`: bounds check raising
`IndexError("Invalid matrix index")`, then zero-removing assignment. -/
def set (M : SparseMatrix) (row col value : Int) : Except MatrixError SparseMatrix :=
  if M.InB row col then
    .ok ⟨M.rows, M.cols, dset M.data (row, col) value⟩
  else
    .error .invalidIndex

end SparseMatrix

/-- First loop of `__add__`/`__sub__`:
`for (r, c), val in self.data.items(): result.set(r, c, val)`. -/
def copyInto (target : SparseMatrix) : List Entry → Except MatrixError SparseMatrix
  | [] => .ok target
  | ((r, c), v) :: rest => do
      let t ← target.set r c v
      copyInto t rest

/-- Second loop of `__add__`:
`for (r, c), val in other.data.items(): result.set(r, c, result.get(r, c) + val)`. -/
def addInto (target : SparseMatrix) : List Entry → Except MatrixError SparseMatrix
  | [] => .ok target
  | ((r, c), v) :: rest => do
      let t ← target.set r c (target.get r c + v)
      addInto t rest

/-- Second loop of `__sub__`:
`result.set(r, c, result.get(r, c) - val)`. -/
def subInto (target : SparseMatrix) : List Entry → Except MatrixError SparseMatrix
  | [] => .ok target
  | ((r, c), v) :: rest => do
      let t ← target.set r c (target.get r c - v)
      subInto t rest

namespace SparseMatrix

/-- `def __add__(self, other)`. -/
def add (A B : SparseMatrix) : Except MatrixError SparseMatrix :=
  if A.rows ≠ B.rows ∨ A.cols ≠ B.cols then .error .dimensionMismatch
  else do
    let r1 ← copyInto ⟨A.rows, A.cols, []⟩ A.data
    addInto r1 B.data

/-- `def __sub__(self, other)`. -/
def sub (A B : SparseMatrix) : Except MatrixError SparseMatrix :=
  if A.rows ≠ B.rows ∨ A.cols ≠ B.cols then .error .dimensionMismatch
  else do
    let r1 ← copyInto ⟨A.rows, A.cols, []⟩ A.data
    subInto r1 B.data

end SparseMatrix

/-- One step of building `other_map`:
`other_map.setdefault(r, []).append((c, val))` — append `(c, val)` to the
list at key `r`, creating the key at the end of the dict if absent. -/
def gadd (m : List (Int × List (Int × Int))) (r : Int) (cv : Int × Int) :
    List (Int × List (Int × Int)) :=
  match m with
  | [] => [(r, [cv])]
  | (k, l) :: t => if k = r then (k, l ++ [cv]) :: t else (k, l) :: gadd t r cv

/-- `other_map` built from `other.data.items()` in iteration order. -/
def groupRows (es : List Entry) : List (Int × List (Int × Int)) :=
  es.foldl (fun m e => gadd m e.1.1 (e.1.2, e.2)) []

/-- Dict lookup in `other_map` (`k in other_map` / `other_map[k]`). -/
def glookup : List (Int × List (Int × Int)) → Int → Option (List (Int × Int))
  | [], _ => none
  | (k, l) :: t, q => if k = q then some l else glookup t q

/-- `other_map[k]` when present, else the empty list (skipped row). -/
def glookupOrNil (m : List (Int × List (Int × Int))) (q : Int) : List (Int × Int) :=
  (glookup m q).getD []

/-- Inner loop of `__matmul__`:
`for j, val2 in other_map[k]: result.set(i, j, result.get(i, j) + val1 * val2)`. -/
def accumRow (target : SparseMatrix) (i v1 : Int) :
    List (Int × Int) → Except MatrixError SparseMatrix
  | [] => .ok target
  | (j, v2) :: rest => do
      let t ← target.set i j (target.get i j + v1 * v2)
      accumRow t i v1 rest

/-- Outer loop of `__matmul__` over `self.data.items()`. -/
def mulInto (omap : List (Int × List (Int × Int))) (target : SparseMatrix) :
    List Entry → Except MatrixError SparseMatrix
  | [] => .ok target
  | ((i, k), v1) :: rest =>
      match glookup omap k with
      | none => mulInto omap target rest
      | some pairs => do
          let t ← accumRow target i v1 pairs
          mulInto omap t rest

namespace SparseMatrix

/-- `def __matmul__(self, other)`. -/
def matmul (A B : SparseMatrix) : Except MatrixError SparseMatrix :=
  if A.cols ≠ B.rows then .error .notAligned
  else mulInto (groupRows B.data) ⟨A.rows, B.cols, []⟩ A.data

end SparseMatrix

/-- Dict representation invariant: each key occurs at most once. -/
def KeysNodup (d : List Entry) : Prop := (d.map Prod.fst).Nodup

/-- Sparsity invariant: no stored entry has value 0. -/
def EntriesNonzero (d : List Entry) : Prop := ∀ e ∈ d, e.2 ≠ 0

/-- Bounds invariant relative to extents. -/
def InBoundsAll (rows cols : Int) (d : List Entry) : Prop :=
  ∀ e ∈ d, 0 ≤ e.1.1 ∧ e.1.1 < rows ∧ 0 ≤ e.1.2 ∧ e.1.2 < cols

/-- The store invariants a `SparseMatrix` reachable through the class API
always satisfies. -/
def StoreInv (M : SparseMatrix) : Prop :=
  InBoundsAll M.rows M.cols M.data ∧ EntriesNonzero M.data ∧ KeysNodup M.data

instance (M : SparseMatrix) : Decidable (StoreInv M) := by
  unfold StoreInv InBoundsAll EntriesNonzero KeysNodup; infer_instance

/-- A fully valid matrix: non-negative extents plus the store invariants. -/
def Valid (M : SparseMatrix) : Prop := 0 ≤ M.rows ∧ 0 ≤ M.cols ∧ StoreInv M

instance (M : SparseMatrix) : Decidable (Valid M) := by
  unfold Valid; infer_instance

instance (d : List Entry) : Decidable (KeysNodup d) := by
  unfold KeysNodup; infer_instance

instance (d : List Entry) : Decidable (EntriesNonzero d) := by
  unfold EntriesNonzero; infer_instance

instance (rows cols : Int) (d : List Entry) : Decidable (InBoundsAll rows cols d) := by
  unfold InBoundsAll; infer_instance

/-! ### Lemmas about the entry store -/

theorem dlookup_eq_none (d : List Entry) (q : Key) :
    dlookup d q = none ↔ q ∉ d.map Prod.fst := by
  induction d with
  | nil => simp [dlookup]
  | cons e t ih =>
    obtain ⟨k, v⟩ := e
    simp only [dlookup, List.map_cons, List.mem_cons, not_or]
    by_cases h : k = q
    · subst h; simp
    · rw [if_neg h, ih]
      have : ¬q = k := fun h2 => h h2.symm
      tauto

theorem dlookup_mem {d : List Entry} {q : Key} {v : Int}
    (h : dlookup d q = some v) : (q, v) ∈ d := by
  induction d with
  | nil => simp [dlookup] at h
  | cons e t ih =>
    obtain ⟨k, w⟩ := e
    by_cases hk : k = q
    · subst hk
      simp only [dlookup, if_pos, Option.some.injEq] at h
      subst h
      exact List.mem_cons_self _ _
    · simp only [dlookup, if_neg hk] at h
      exact List.mem_cons_of_mem _ (ih h)

theorem mem_dlookup {d : List Entry} {q : Key} {v : Int}
    (hnd : KeysNodup d) (h : (q, v) ∈ d) : dlookup d q = some v := by
  induction d with
  | nil => simp at h
  | cons e t ih =>
    obtain ⟨k, w⟩ := e
    unfold KeysNodup at hnd
    simp only [List.map_cons, List.nodup_cons] at hnd
    rcases List.mem_cons.mp h with h1 | h1
    · rw [show q = k from (Prod.mk.injEq .. ▸ congrArg Prod.fst h1),
        show v = w from congrArg Prod.snd h1]
      simp [dlookup]
    · have hk : k ≠ q := by
        intro hkq; subst hkq
        exact hnd.1 (by simpa using List.mem_map_of_mem Prod.fst h1)
      simp only [dlookup, if_neg hk]
      exact ih hnd.2 h1

theorem dlookup_dinsert_self (d : List Entry) (q : Key) (w : Int) :
    dlookup (dinsert d q w) q = some w := by
  induction d with
  | nil => simp [dinsert, dlookup]
  | cons e t ih =>
    obtain ⟨k, v⟩ := e
    by_cases h : k = q
    · simp [dinsert, h, dlookup]
    · simp [dinsert, h, dlookup, ih]

theorem dlookup_dinsert_ne (d : List Entry) (q p : Key) (w : Int) (hne : p ≠ q) :
    dlookup (dinsert d q w) p = dlookup d p := by
  have hqp : ¬q = p := fun h => hne h.symm
  induction d with
  | nil => simp [dinsert, dlookup, hqp]
  | cons e t ih =>
    obtain ⟨k, v⟩ := e
    by_cases h : k = q
    · subst h
      simp [dinsert, dlookup, hqp]
    · simp [dinsert, h, dlookup, ih]

theorem dlookup_derase_self {d : List Entry} (hnd : KeysNodup d) (q : Key) :
    dlookup (derase d q) q = none := by
  induction d with
  | nil => simp [derase, dlookup]
  | cons e t ih =>
    obtain ⟨k, v⟩ := e
    unfold KeysNodup at hnd
    simp only [List.map_cons, List.nodup_cons] at hnd
    by_cases h : k = q
    · subst h
      simp only [derase, if_pos rfl]
      rw [dlookup_eq_none]
      exact hnd.1
    · simp only [derase, if_neg h, dlookup, if_neg h]
      exact ih hnd.2

theorem dlookup_derase_ne (d : List Entry) (q p : Key) (hne : p ≠ q) :
    dlookup (derase d q) p = dlookup d p := by
  induction d with
  | nil => simp [derase]
  | cons e t ih =>
    obtain ⟨k, v⟩ := e
    by_cases h : k = q
    · subst h
      have : ¬k = p := fun h2 => hne h2.symm
      simp [derase, dlookup, this]
    · simp [derase, h, dlookup, ih]

theorem dget_dset_self {d : List Entry} (hnd : KeysNodup d) (q : Key) (w : Int) :
    dget (dset d q w) q = w := by
  unfold dset dget
  by_cases h : w = 0
  · simp [h, dlookup_derase_self hnd]
  · simp [h, dlookup_dinsert_self]

theorem dget_dset_ne (d : List Entry) (q p : Key) (w : Int) (hne : p ≠ q) :
    dget (dset d q w) p = dget d p := by
  unfold dset dget
  by_cases h : w = 0
  · simp [h, dlookup_derase_ne d q p hne]
  · simp [h, dlookup_dinsert_ne d q p w hne]

theorem mem_dinsert {d : List Entry} {q : Key} {w : Int} {e : Entry}
    (h : e ∈ dinsert d q w) : e ∈ d ∨ e = (q, w) := by
  induction d with
  | nil => simp [dinsert] at h; simp [h]
  | cons f t ih =>
    obtain ⟨k, v⟩ := f
    by_cases hk : k = q
    · subst hk
      rcases List.mem_cons.mp (by simpa [dinsert] using h) with h1 | h1
      · right; simp [h1]
      · left; exact List.mem_cons_of_mem _ h1
    · rcases List.mem_cons.mp (by simpa [dinsert, hk] using h) with h1 | h1
      · left; simp [h1]
      · rcases ih h1 with h2 | h2
        · left; exact List.mem_cons_of_mem _ h2
        · right; exact h2

theorem mem_derase {d : List Entry} {q : Key} {e : Entry}
    (h : e ∈ derase d q) : e ∈ d := by
  induction d with
  | nil => simp [derase] at h
  | cons f t ih =>
    obtain ⟨k, v⟩ := f
    by_cases hk : k = q
    · subst hk
      simp only [derase, if_pos rfl] at h
      exact List.mem_cons_of_mem _ h
    · rcases List.mem_cons.mp (by simpa [derase, hk] using h) with h1 | h1
      · simp [h1]
      · exact List.mem_cons_of_mem _ (ih h1)

theorem mem_dset {d : List Entry} {q : Key} {w : Int} {e : Entry}
    (h : e ∈ dset d q w) : e ∈ d ∨ e = (q, w) := by
  unfold dset at h
  by_cases hw : w = 0
  · rw [if_pos hw] at h; left; exact mem_derase h
  · rw [if_neg hw] at h; exact mem_dinsert h

theorem keysNodup_derase {d : List Entry} (hnd : KeysNodup d) (q : Key) :
    KeysNodup (derase d q) := by
  induction d with
  | nil => simpa [derase] using hnd
  | cons f t ih =>
    obtain ⟨k, v⟩ := f
    unfold KeysNodup at hnd ⊢
    simp only [List.map_cons, List.nodup_cons] at hnd
    by_cases hk : k = q
    · simpa [derase, hk] using hnd.2
    · simp only [derase, if_neg hk, List.map_cons, List.nodup_cons]
      refine ⟨fun hmem => ?_, ih hnd.2⟩
      have : ∀ p ∈ derase t q, p ∈ t := fun p hp => mem_derase hp
      simp only [List.mem_map] at hmem
      obtain ⟨e, he, hke⟩ := hmem
      exact hnd.1 (hke ▸ List.mem_map_of_mem Prod.fst (this e he))

theorem keysNodup_dinsert {d : List Entry} (hnd : KeysNodup d) (q : Key) (w : Int) :
    KeysNodup (dinsert d q w) := by
  induction d with
  | nil => simp [dinsert, KeysNodup]
  | cons f t ih =>
    obtain ⟨k, v⟩ := f
    unfold KeysNodup at hnd ⊢
    simp only [List.map_cons, List.nodup_cons] at hnd
    by_cases hk : k = q
    · simpa [dinsert, hk, List.nodup_cons] using hnd
    · simp only [dinsert, if_neg hk, List.map_cons, List.nodup_cons]
      refine ⟨fun hmem => ?_, ih hnd.2⟩
      simp only [List.mem_map] at hmem
      obtain ⟨e, he, hke⟩ := hmem
      rcases mem_dinsert he with h1 | h1
      · exact hnd.1 (hke ▸ List.mem_map_of_mem Prod.fst h1)
      · exact hk (by rw [← hke, h1])

theorem keysNodup_dset {d : List Entry} (hnd : KeysNodup d) (q : Key) (w : Int) :
    KeysNodup (dset d q w) := by
  unfold dset
  by_cases hw : w = 0
  · rw [if_pos hw]; exact keysNodup_derase hnd q
  · rw [if_neg hw]; exact keysNodup_dinsert hnd q w

theorem entriesNonzero_dset {d : List Entry} (hnz : EntriesNonzero d) (q : Key) (w : Int) :
    EntriesNonzero (dset d q w) := by
  intro e he
  by_cases hw : w = 0
  · exact hnz e (mem_derase (by simpa [dset, hw] using he))
  · rcases mem_dset he with h1 | h1
    · exact hnz e h1
    · rw [h1]; exact hw

theorem inBoundsAll_dset {rows cols : Int} {d : List Entry}
    (hb : InBoundsAll rows cols d) {q : Key}
    (hq : 0 ≤ q.1 ∧ q.1 < rows ∧ 0 ≤ q.2 ∧ q.2 < cols) (w : Int) :
    InBoundsAll rows cols (dset d q w) := by
  intro e he
  rcases mem_dset he with h1 | h1
  · exact hb e h1
  · rw [h1]; exact hq

/-! ### Lemmas about `SparseMatrix.set` -/

theorem set_ok {M : SparseMatrix} {row col value : Int} (h : M.InB row col) :
    M.set row col value = .ok ⟨M.rows, M.cols, dset M.data (row, col) value⟩ := by
  simp [SparseMatrix.set, h]

theorem set_error {M : SparseMatrix} {row col value : Int} (h : ¬M.InB row col) :
    M.set row col value = .error .invalidIndex := by
  simp [SparseMatrix.set, h]

/-- The shape of a successful `set`, with all facts needed downstream. -/
theorem set_spec {M M' : SparseMatrix} {row col value : Int}
    (h : M.set row col value = .ok M') :
    M.InB row col ∧ M'.rows = M.rows ∧ M'.cols = M.cols ∧
      M'.data = dset M.data (row, col) value := by
  by_cases hb : M.InB row col
  · rw [set_ok hb] at h
    obtain rfl := (Except.ok.injEq .. ▸ h)
    exact ⟨hb, rfl, rfl, rfl⟩
  · rw [set_error hb] at h
    exact absurd h (by simp)

theorem get_set_self {M M' : SparseMatrix} {row col value : Int}
    (hnd : KeysNodup M.data) (h : M.set row col value = .ok M') :
    M'.get row col = value := by
  obtain ⟨-, -, -, hd⟩ := set_spec h
  unfold SparseMatrix.get
  rw [hd]
  exact dget_dset_self hnd _ _

theorem get_set_ne {M M' : SparseMatrix} {row col value r c : Int}
    (h : M.set row col value = .ok M') (hne : (r, c) ≠ (row, col)) :
    M'.get r c = M.get r c := by
  obtain ⟨-, -, -, hd⟩ := set_spec h
  unfold SparseMatrix.get
  rw [hd]
  exact dget_dset_ne _ _ _ _ hne

theorem storeInv_set {M M' : SparseMatrix} {row col value : Int}
    (hI : StoreInv M) (h : M.set row col value = .ok M') : StoreInv M' := by
  obtain ⟨hin, hrows, hcols, hd⟩ := set_spec h
  obtain ⟨hb, hnz, hnd⟩ := hI
  refine ⟨?_, ?_, ?_⟩
  · rw [hrows, hcols, hd]
    exact inBoundsAll_dset hb (q := (row, col)) hin value
  · rw [hd]; exact entriesNonzero_dset hnz _ _
  · rw [hd]; exact keysNodup_dset hnd _ _

/-- Under the sparsity invariants, `get` is zero exactly off the stored keys. -/
theorem dget_eq_zero_iff {d : List Entry} (hnz : EntriesNonzero d) (q : Key) :
    dget d q = 0 ↔ q ∉ d.map Prod.fst := by
  rw [← dlookup_eq_none]
  unfold dget
  constructor
  · intro h
    cases hl : dlookup d q with
    | none => rfl
    | some v =>
      exact absurd (by simpa [hl] using h) (hnz (q, v) (dlookup_mem hl))
  · intro h; rw [h]; rfl

/-- Matrices with the invariants and pointwise-equal stores hold exactly the
same entries. -/
theorem entries_ext {d1 d2 : List Entry}
    (hnd1 : KeysNodup d1) (hnd2 : KeysNodup d2)
    (hnz1 : EntriesNonzero d1) (hnz2 : EntriesNonzero d2)
    (hget : ∀ q, dget d1 q = dget d2 q) :
    ∀ e : Entry, e ∈ d1 ↔ e ∈ d2 := by
  have key : ∀ (d1 d2 : List Entry), KeysNodup d1 → EntriesNonzero d1 →
      (∀ q, dget d1 q = dget d2 q) → ∀ e : Entry, e ∈ d1 → e ∈ d2 := by
    intro d1 d2 hnd hnz hg e he
    obtain ⟨q, v⟩ := e
    have hv : v ≠ 0 := hnz (q, v) he
    have h1 : dget d1 q = v := by unfold dget; rw [mem_dlookup hnd he]; rfl
    have h2 : dget d2 q = v := by rw [← hg q]; exact h1
    unfold dget at h2
    cases hl : dlookup d2 q with
    | none => rw [hl] at h2; exact absurd h2.symm hv
    | some w =>
      rw [hl] at h2
      obtain rfl : w = v := h2
      exact dlookup_mem hl
  intro e
  exact ⟨key d1 d2 hnd1 hnz1 hget e, key d2 d1 hnd2 hnz2 (fun q => (hget q).symm) e⟩

theorem dget_cons (k : Key) (v : Int) (t : List Entry) (q : Key) :
    dget ((k, v) :: t) q = if k = q then v else dget t q := by
  unfold dget
  rw [show dlookup ((k, v) :: t) q = if k = q then some v else dlookup t q from rfl]
  by_cases h : k = q <;> simp [h]

theorem dget_of_not_mem {d : List Entry} {q : Key} (h : q ∉ d.map Prod.fst) :
    dget d q = 0 := by
  unfold dget
  rw [(dlookup_eq_none d q).mpr h]
  rfl

/-- The empty store of `SparseMatrix(rows, cols)` satisfies the invariants. -/
theorem storeInv_empty (rows cols : Int) : StoreInv ⟨rows, cols, []⟩ := by
  refine ⟨fun e he => absurd he (List.not_mem_nil e),
    fun e he => absurd he (List.not_mem_nil e), ?_⟩
  simp [KeysNodup]

/-! ### The copy and accumulate loops of `__add__` / `__sub__` -/

theorem copyInto_spec : ∀ (es : List Entry) (T : SparseMatrix),
    InBoundsAll T.rows T.cols es → KeysNodup es → StoreInv T →
    ∃ T', copyInto T es = .ok T' ∧ T'.rows = T.rows ∧ T'.cols = T.cols ∧ StoreInv T' ∧
      ∀ q : Key, dget T'.data q =
        if q ∈ es.map Prod.fst then dget es q else dget T.data q := by
  intro es
  induction es with
  | nil =>
    intro T _ _ hT
    exact ⟨T, rfl, rfl, rfl, hT, fun q => by simp⟩
  | cons e rest ih =>
    intro T hb hnd hT
    obtain ⟨⟨r, c⟩, v⟩ := e
    have hin : T.InB r c := by
      have := hb ((r, c), v) (List.mem_cons_self _ _)
      exact ⟨this.1, this.2.1, this.2.2.1, this.2.2.2⟩
    have hset : T.set r c v = .ok ⟨T.rows, T.cols, dset T.data (r, c) v⟩ := set_ok hin
    set T1 : SparseMatrix := ⟨T.rows, T.cols, dset T.data (r, c) v⟩ with hT1
    have hT1inv : StoreInv T1 := storeInv_set hT hset
    have hnd_rest : KeysNodup rest := by
      unfold KeysNodup at hnd ⊢
      exact (List.nodup_cons.mp (by simpa using hnd)).2
    have hhead : (r, c) ∉ rest.map Prod.fst := by
      unfold KeysNodup at hnd
      exact (List.nodup_cons.mp (by simpa using hnd)).1
    have hb_rest : InBoundsAll T1.rows T1.cols rest := by
      intro e he
      exact hb e (List.mem_cons_of_mem _ he)
    obtain ⟨T', hrun, hrows, hcols, hinv, hget⟩ := ih T1 hb_rest hnd_rest hT1inv
    refine ⟨T', ?_, hrows, hcols, hinv, ?_⟩
    · show copyInto T (((r, c), v) :: rest) = .ok T'
      unfold copyInto
      rw [hset]
      simpa using hrun
    · intro q
      rw [hget q]
      by_cases h1 : q ∈ rest.map Prod.fst
      · have hq : q ≠ (r, c) := fun h => hhead (h ▸ h1)
        have : ¬(r, c) = q := fun h => hq h.symm
        simp [h1, dget_cons, this]
      · by_cases h2 : q = (r, c)
        · subst h2
          have hv : dget T1.data (r, c) = v := dget_dset_self hT.2.2 (r, c) v
          simp [h1, hv, dget_cons]
        · have hv : dget T1.data q = dget T.data q := dget_dset_ne _ _ _ _ h2
          have hne : ¬(r, c) = q := fun h => h2 h.symm
          simp [h1, h2, hv, dget_cons, hne]

theorem addInto_spec : ∀ (es : List Entry) (T : SparseMatrix),
    InBoundsAll T.rows T.cols es → KeysNodup es → StoreInv T →
    ∃ T', addInto T es = .ok T' ∧ T'.rows = T.rows ∧ T'.cols = T.cols ∧ StoreInv T' ∧
      ∀ q : Key, dget T'.data q = dget T.data q + dget es q := by
  intro es
  induction es with
  | nil =>
    intro T _ _ hT
    exact ⟨T, rfl, rfl, rfl, hT, fun q => by simp [dget, dlookup]⟩
  | cons e rest ih =>
    intro T hb hnd hT
    obtain ⟨⟨r, c⟩, v⟩ := e
    have hin : T.InB r c := by
      have := hb ((r, c), v) (List.mem_cons_self _ _)
      exact ⟨this.1, this.2.1, this.2.2.1, this.2.2.2⟩
    have hset : T.set r c (T.get r c + v) =
      .ok ⟨T.rows, T.cols, dset T.data (r, c) (T.get r c + v)⟩ := set_ok hin
    set T1 : SparseMatrix := ⟨T.rows, T.cols, dset T.data (r, c) (T.get r c + v)⟩ with hT1
    have hT1inv : StoreInv T1 := storeInv_set hT hset
    have hnd_rest : KeysNodup rest := by
      unfold KeysNodup at hnd ⊢
      exact (List.nodup_cons.mp (by simpa using hnd)).2
    have hhead : (r, c) ∉ rest.map Prod.fst := by
      unfold KeysNodup at hnd
      exact (List.nodup_cons.mp (by simpa using hnd)).1
    have hb_rest : InBoundsAll T1.rows T1.cols rest := by
      intro e he
      exact hb e (List.mem_cons_of_mem _ he)
    obtain ⟨T', hrun, hrows, hcols, hinv, hget⟩ := ih T1 hb_rest hnd_rest hT1inv
    refine ⟨T', ?_, hrows, hcols, hinv, ?_⟩
    · show addInto T (((r, c), v) :: rest) = .ok T'
      unfold addInto
      rw [hset]
      simpa using hrun
    · intro q
      rw [hget q]
      by_cases h2 : q = (r, c)
      · subst h2
        have e1 : dget T1.data (r, c) = T.get r c + v := dget_dset_self hT.2.2 (r, c) _
        have e2 : dget rest (r, c) = 0 := dget_of_not_mem hhead
        simp [e1, e2, dget_cons, SparseMatrix.get]
        exact dget_dset_self hT.2.2 (r, c) _
      · have e1 : dget T1.data q = dget T.data q := dget_dset_ne _ _ _ _ h2
        have hne : ¬(r, c) = q := fun h => h2 h.symm
        simp [e1, dget_cons, hne]

theorem subInto_spec : ∀ (es : List Entry) (T : SparseMatrix),
    InBoundsAll T.rows T.cols es → KeysNodup es → StoreInv T →
    ∃ T', subInto T es = .ok T' ∧ T'.rows = T.rows ∧ T'.cols = T.cols ∧ StoreInv T' ∧
      ∀ q : Key, dget T'.data q = dget T.data q - dget es q := by
  intro es
  induction es with
  | nil =>
    intro T _ _ hT
    exact ⟨T, rfl, rfl, rfl, hT, fun q => by simp [dget, dlookup]⟩
  | cons e rest ih =>
    intro T hb hnd hT
    obtain ⟨⟨r, c⟩, v⟩ := e
    have hin : T.InB r c := by
      have := hb ((r, c), v) (List.mem_cons_self _ _)
      exact ⟨this.1, this.2.1, this.2.2.1, this.2.2.2⟩
    have hset : T.set r c (T.get r c - v) =
      .ok ⟨T.rows, T.cols, dset T.data (r, c) (T.get r c - v)⟩ := set_ok hin
    set T1 : SparseMatrix := ⟨T.rows, T.cols, dset T.data (r, c) (T.get r c - v)⟩ with hT1
    have hT1inv : StoreInv T1 := storeInv_set hT hset
    have hnd_rest : KeysNodup rest := by
      unfold KeysNodup at hnd ⊢
      exact (List.nodup_cons.mp (by simpa using hnd)).2
    have hhead : (r, c) ∉ rest.map Prod.fst := by
      unfold KeysNodup at hnd
      exact (List.nodup_cons.mp (by simpa using hnd)).1
    have hb_rest : InBoundsAll T1.rows T1.cols rest := by
      intro e he
      exact hb e (List.mem_cons_of_mem _ he)
    obtain ⟨T', hrun, hrows, hcols, hinv, hget⟩ := ih T1 hb_rest hnd_rest hT1inv
    refine ⟨T', ?_, hrows, hcols, hinv, ?_⟩
    · show subInto T (((r, c), v) :: rest) = .ok T'
      unfold subInto
      rw [hset]
      simpa using hrun
    · intro q
      rw [hget q]
      by_cases h2 : q = (r, c)
      · subst h2
        have e1 : dget T1.data (r, c) = T.get r c - v := dget_dset_self hT.2.2 (r, c) _
        have e2 : dget rest (r, c) = 0 := dget_of_not_mem hhead
        simp [e1, e2, dget_cons, SparseMatrix.get]
        exact dget_dset_self hT.2.2 (r, c) _
      · have e1 : dget T1.data q = dget T.data q := dget_dset_ne _ _ _ _ h2
        have hne : ¬(r, c) = q := fun h => h2 h.symm
        simp [e1, dget_cons, hne]

/-! ### Specification of `__add__` and `__sub__` -/

theorem add_dim_error {A B : SparseMatrix} (h : A.rows ≠ B.rows ∨ A.cols ≠ B.cols) :
    A.add B = .error .dimensionMismatch := by
  unfold SparseMatrix.add
  rw [if_pos h]

theorem sub_dim_error {A B : SparseMatrix} (h : A.rows ≠ B.rows ∨ A.cols ≠ B.cols) :
    A.sub B = .error .dimensionMismatch := by
  unfold SparseMatrix.sub
  rw [if_pos h]

theorem add_spec {A B : SparseMatrix} (hA : StoreInv A) (hB : StoreInv B)
    (hr : A.rows = B.rows) (hc : A.cols = B.cols) :
    ∃ C, A.add B = .ok C ∧ C.rows = A.rows ∧ C.cols = A.cols ∧ StoreInv C ∧
      ∀ r c : Int, C.get r c = A.get r c + B.get r c := by
  have hcond : ¬(A.rows ≠ B.rows ∨ A.cols ≠ B.cols) := by simp [hr, hc]
  obtain ⟨T1, h1, h1r, h1c, h1inv, h1get⟩ :=
    copyInto_spec A.data ⟨A.rows, A.cols, []⟩ (fun e he => hA.1 e he) hA.2.2
      (storeInv_empty _ _)
  have hT1get : ∀ q : Key, dget T1.data q = dget A.data q := by
    intro q
    rw [h1get q]
    by_cases h : q ∈ A.data.map Prod.fst
    · simp [h]
    · rw [if_neg h, dget_of_not_mem h]
      rfl
  have hT1r : T1.rows = B.rows := by rw [h1r]; exact hr
  have hT1c : T1.cols = B.cols := by rw [h1c]; exact hc
  obtain ⟨C, h2, h2r, h2c, h2inv, h2get⟩ :=
    addInto_spec B.data T1 (fun e he => by rw [hT1r, hT1c]; exact hB.1 e he)
      hB.2.2 h1inv
  refine ⟨C, ?_, by rw [h2r]; exact h1r, by rw [h2c]; exact h1c, h2inv, ?_⟩
  · unfold SparseMatrix.add
    rw [if_neg hcond]
    show (copyInto ⟨A.rows, A.cols, []⟩ A.data).bind _ = .ok C
    rw [h1]
    simpa using h2
  · intro r c
    show dget C.data (r, c) = A.get r c + B.get r c
    rw [h2get (r, c), hT1get (r, c)]
    rfl

theorem sub_spec {A B : SparseMatrix} (hA : StoreInv A) (hB : StoreInv B)
    (hr : A.rows = B.rows) (hc : A.cols = B.cols) :
    ∃ C, A.sub B = .ok C ∧ C.rows = A.rows ∧ C.cols = A.cols ∧ StoreInv C ∧
      ∀ r c : Int, C.get r c = A.get r c - B.get r c := by
  have hcond : ¬(A.rows ≠ B.rows ∨ A.cols ≠ B.cols) := by simp [hr, hc]
  obtain ⟨T1, h1, h1r, h1c, h1inv, h1get⟩ :=
    copyInto_spec A.data ⟨A.rows, A.cols, []⟩ (fun e he => hA.1 e he) hA.2.2
      (storeInv_empty _ _)
  have hT1get : ∀ q : Key, dget T1.data q = dget A.data q := by
    intro q
    rw [h1get q]
    by_cases h : q ∈ A.data.map Prod.fst
    · simp [h]
    · rw [if_neg h, dget_of_not_mem h]
      rfl
  have hT1r : T1.rows = B.rows := by rw [h1r]; exact hr
  have hT1c : T1.cols = B.cols := by rw [h1c]; exact hc
  obtain ⟨C, h2, h2r, h2c, h2inv, h2get⟩ :=
    subInto_spec B.data T1 (fun e he => by rw [hT1r, hT1c]; exact hB.1 e he)
      hB.2.2 h1inv
  refine ⟨C, ?_, by rw [h2r]; exact h1r, by rw [h2c]; exact h1c, h2inv, ?_⟩
  · unfold SparseMatrix.sub
    rw [if_neg hcond]
    show (copyInto ⟨A.rows, A.cols, []⟩ A.data).bind _ = .ok C
    rw [h1]
    simpa using h2
  · intro r c
    show dget C.data (r, c) = A.get r c - B.get r c
    rw [h2get (r, c), hT1get (r, c)]
    rfl

/-! ### Specification of `__matmul__` -/

/-- Sum of the values in `pairs` stored at column `j` (duplicates allowed). -/
def colSum (pairs : List (Int × Int)) (j : Int) : Int :=
  (pairs.map (fun p => if p.1 = j then p.2 else 0)).sum

/-- Contribution of row `k` of `other_map` at column `j`. -/
def rowSum (m : List (Int × List (Int × Int))) (k j : Int) : Int :=
  colSum (glookupOrNil m k) j

/-- Total contribution at `(i, j)` accumulated by the outer loop of
`__matmul__` over the entries `es` of the left operand. -/
def esSum (m : List (Int × List (Int × Int))) (es : List Entry) (i j : Int) : Int :=
  (es.map (fun e => if e.1.1 = i then e.2 * rowSum m e.1.2 j else 0)).sum

theorem glookupOrNil_gadd (m : List (Int × List (Int × Int))) (r : Int)
    (cv : Int × Int) (k : Int) :
    glookupOrNil (gadd m r cv) k =
      if r = k then glookupOrNil m k ++ [cv] else glookupOrNil m k := by
  induction m with
  | nil =>
    by_cases h : r = k <;> simp [gadd, glookupOrNil, glookup, h]
  | cons f t ih =>
    obtain ⟨k0, l⟩ := f
    by_cases h0 : k0 = r
    · subst h0
      by_cases h : k0 = k
      · subst h; simp [gadd, glookupOrNil, glookup]
      · simp [gadd, glookupOrNil, glookup, h]
    · by_cases h : k0 = k
      · subst h
        have : ¬r = k0 := fun h2 => h0 h2.symm
        simp [gadd, glookupOrNil, glookup, h0, this]
      · simp only [gadd, if_neg h0]
        rw [show glookupOrNil ((k0, l) :: gadd t r cv) k = glookupOrNil (gadd t r cv) k by
          simp [glookupOrNil, glookup, h]]
        rw [show glookupOrNil ((k0, l) :: t) k = glookupOrNil t k by
          simp [glookupOrNil, glookup, h]]
        exact ih

theorem glookupOrNil_foldl (es : List Entry) :
    ∀ (m : List (Int × List (Int × Int))) (k : Int),
    glookupOrNil (es.foldl (fun m e => gadd m e.1.1 (e.1.2, e.2)) m) k =
      glookupOrNil m k ++ (es.filter (fun e => e.1.1 = k)).map (fun e => (e.1.2, e.2)) := by
  induction es with
  | nil => intro m k; simp
  | cons e t ih =>
    intro m k
    rw [List.foldl_cons, ih]
    rw [glookupOrNil_gadd]
    by_cases h : e.1.1 = k
    · simp [h, List.filter_cons]
    · simp [h, List.filter_cons]

/-- `other_map[k]` holds exactly the `(col, value)` pairs of the entries of
`es` whose row is `k`, in iteration order. -/
theorem glookupOrNil_groupRows (es : List Entry) (k : Int) :
    glookupOrNil (groupRows es) k =
      (es.filter (fun e => e.1.1 = k)).map (fun e => (e.1.2, e.2)) := by
  unfold groupRows
  rw [glookupOrNil_foldl]
  simp [glookupOrNil, glookup]

theorem colSum_cons (j v2 : Int) (rest : List (Int × Int)) (x : Int) :
    colSum ((j, v2) :: rest) x = (if j = x then v2 else 0) + colSum rest x := by
  unfold colSum
  simp

theorem colSum_filter (es : List Entry) (k j : Int) :
    colSum ((es.filter (fun e => e.1.1 = k)).map (fun e => (e.1.2, e.2))) j =
      (es.map (fun e => if e.1.1 = k ∧ e.1.2 = j then e.2 else 0)).sum := by
  induction es with
  | nil => simp [colSum]
  | cons e t ih =>
    by_cases h : e.1.1 = k
    · rw [List.filter_cons_of_pos (by simpa using h), List.map_cons]
      rw [colSum_cons, ih]
      simp [h]
    · rw [List.filter_cons_of_neg (by simpa using h), ih]
      simp [h]

theorem rcSum_zero_of_not_mem {es : List Entry} {k j : Int}
    (h : (k, j) ∉ es.map Prod.fst) :
    (es.map (fun e => if e.1.1 = k ∧ e.1.2 = j then e.2 else 0)).sum = 0 := by
  induction es with
  | nil => simp
  | cons e t ih =>
    simp only [List.map_cons, List.mem_cons, not_or] at h
    have hterm : ¬(e.1.1 = k ∧ e.1.2 = j) := by
      rintro ⟨h1, h2⟩
      exact h.1 (by rw [← h1, ← h2])
    simp [hterm, ih h.2]

theorem rcSum_eq_dget {es : List Entry} (hnd : KeysNodup es) (k j : Int) :
    (es.map (fun e => if e.1.1 = k ∧ e.1.2 = j then e.2 else 0)).sum = dget es (k, j) := by
  induction es with
  | nil => simp [dget, dlookup]
  | cons e t ih =>
    obtain ⟨⟨r, c⟩, v⟩ := e
    unfold KeysNodup at hnd
    simp only [List.map_cons, List.nodup_cons] at hnd
    by_cases h : r = k ∧ c = j
    · obtain ⟨rfl, rfl⟩ := h
      rw [List.map_cons, List.sum_cons, rcSum_zero_of_not_mem hnd.1]
      simp [dget_cons]
    · have hkey : ¬(r, c) = (k, j) := by
        intro h2
        exact h ⟨congrArg Prod.fst h2, congrArg Prod.snd h2⟩
      rw [List.map_cons, List.sum_cons]
      simp only [h, if_neg, if_false]
      rw [ih hnd.2, dget_cons]
      simp [hkey]

/-- Under the dict invariant of `B`, `other_map` row sums compute `B.get`. -/
theorem rowSum_groupRows {es : List Entry} (hnd : KeysNodup es) (k j : Int) :
    rowSum (groupRows es) k j = dget es (k, j) := by
  unfold rowSum
  rw [glookupOrNil_groupRows, colSum_filter, rcSum_eq_dget hnd]

theorem accumRow_spec : ∀ (pairs : List (Int × Int)) (T : SparseMatrix) (i v1 : Int),
    0 ≤ i → i < T.rows → (∀ p ∈ pairs, 0 ≤ p.1 ∧ p.1 < T.cols) → StoreInv T →
    ∃ T', accumRow T i v1 pairs = .ok T' ∧ T'.rows = T.rows ∧ T'.cols = T.cols ∧
      StoreInv T' ∧
      ∀ q : Key, dget T'.data q =
        dget T.data q + (if q.1 = i then v1 * colSum pairs q.2 else 0) := by
  intro pairs
  induction pairs with
  | nil =>
    intro T i v1 _ _ _ hT
    exact ⟨T, rfl, rfl, rfl, hT, fun q => by simp [colSum]⟩
  | cons p rest ih =>
    intro T i v1 hi0 hi1 hcols hT
    obtain ⟨j, v2⟩ := p
    have hjb := hcols (j, v2) (List.mem_cons_self _ _)
    have hin : T.InB i j := ⟨hi0, hi1, hjb.1, hjb.2⟩
    have hset : T.set i j (T.get i j + v1 * v2) =
      .ok ⟨T.rows, T.cols, dset T.data (i, j) (T.get i j + v1 * v2)⟩ := set_ok hin
    set T1 : SparseMatrix :=
      ⟨T.rows, T.cols, dset T.data (i, j) (T.get i j + v1 * v2)⟩ with hT1
    have hT1inv : StoreInv T1 := storeInv_set hT hset
    have hrest : ∀ p ∈ rest, 0 ≤ p.1 ∧ p.1 < T1.cols := by
      intro p hp
      exact hcols p (List.mem_cons_of_mem _ hp)
    obtain ⟨T', hrun, hrows, hcols', hinv, hget⟩ := ih T1 i v1 hi0 hi1 hrest hT1inv
    refine ⟨T', ?_, hrows, hcols', hinv, ?_⟩
    · show accumRow T i v1 ((j, v2) :: rest) = .ok T'
      unfold accumRow
      rw [hset]
      simpa using hrun
    · intro q
      rw [hget q, colSum_cons]
      by_cases hqi : q.1 = i
      · by_cases hqj : q.2 = j
        · have hkey : q = ((i, j) : Key) := by
            obtain ⟨a, b⟩ := q
            rw [show a = i from hqi, show b = j from hqj]
          have e1 : dget T1.data q = T.get i j + v1 * v2 := by
            rw [hkey]
            exact dget_dset_self hT.2.2 (i, j) _
          have e0 : dget T.data q = T.get i j := by rw [hkey]; rfl
          rw [e1, e0]
          simp only [hqi, hqj, if_pos]
          ring
        · have hkey : q ≠ ((i, j) : Key) := fun h2 => hqj (congrArg Prod.snd h2)
          have e1 : dget T1.data q = dget T.data q := dget_dset_ne _ _ _ _ hkey
          have hj : ¬j = q.2 := fun h2 => hqj h2.symm
          simp [e1, hj]
      · have hkey : q ≠ ((i, j) : Key) := fun h2 => hqi (congrArg Prod.fst h2)
        have e1 : dget T1.data q = dget T.data q := dget_dset_ne _ _ _ _ hkey
        simp [e1, hqi]

theorem esSum_cons (m : List (Int × List (Int × Int))) (i k v1 : Int)
    (rest : List Entry) (p j : Int) :
    esSum m (((i, k), v1) :: rest) p j =
      (if i = p then v1 * rowSum m k j else 0) + esSum m rest p j := by
  unfold esSum
  simp

theorem mulInto_spec : ∀ (es : List Entry) (T : SparseMatrix)
    (omap : List (Int × List (Int × Int))),
    (∀ e ∈ es, 0 ≤ e.1.1 ∧ e.1.1 < T.rows) →
    (∀ k : Int, ∀ p ∈ glookupOrNil omap k, 0 ≤ p.1 ∧ p.1 < T.cols) →
    StoreInv T →
    ∃ T', mulInto omap T es = .ok T' ∧ T'.rows = T.rows ∧ T'.cols = T.cols ∧
      StoreInv T' ∧
      ∀ q : Key, dget T'.data q = dget T.data q + esSum omap es q.1 q.2 := by
  intro es
  induction es with
  | nil =>
    intro T omap _ _ hT
    exact ⟨T, rfl, rfl, rfl, hT, fun q => by simp [esSum]⟩
  | cons e rest ih =>
    intro T omap hrows hcols hT
    obtain ⟨⟨i, k⟩, v1⟩ := e
    have hib := hrows ((i, k), v1) (List.mem_cons_self _ _)
    have hrest : ∀ e ∈ rest, 0 ≤ e.1.1 ∧ e.1.1 < T.rows := fun e he =>
      hrows e (List.mem_cons_of_mem _ he)
    cases hglk : glookup omap k with
    | none =>
      obtain ⟨T', hrun, hr, hc, hinv, hget⟩ := ih T omap hrest hcols hT
      refine ⟨T', ?_, hr, hc, hinv, ?_⟩
      · show mulInto omap T (((i, k), v1) :: rest) = .ok T'
        unfold mulInto
        rw [hglk]
        exact hrun
      · intro q
        rw [hget q, esSum_cons]
        have : rowSum omap k q.2 = 0 := by
          unfold rowSum glookupOrNil
          rw [hglk]
          simp [colSum]
        rw [this]
        simp
    | some pairs =>
      have hpairs : ∀ p ∈ pairs, 0 ≤ p.1 ∧ p.1 < T.cols := by
        intro p hp
        refine hcols k p ?_
        unfold glookupOrNil
        rw [hglk]
        exact hp
      obtain ⟨T1, hrun1, h1r, h1c, h1inv, h1get⟩ :=
        accumRow_spec pairs T i v1 hib.1 hib.2 hpairs hT
      have hrest1 : ∀ e ∈ rest, 0 ≤ e.1.1 ∧ e.1.1 < T1.rows := by
        intro e he
        rw [h1r]
        exact hrest e he
      have hcols1 : ∀ j : Int, ∀ p ∈ glookupOrNil omap j, 0 ≤ p.1 ∧ p.1 < T1.cols := by
        intro j p hp
        rw [h1c]
        exact hcols j p hp
      obtain ⟨T', hrun, hr, hc, hinv, hget⟩ := ih T1 omap hrest1 hcols1 h1inv
      refine ⟨T', ?_, by rw [hr, h1r], by rw [hc, h1c], hinv, ?_⟩
      · show mulInto omap T (((i, k), v1) :: rest) = .ok T'
        unfold mulInto
        rw [hglk]
        show (accumRow T i v1 pairs).bind _ = .ok T'
        rw [hrun1]
        simpa using hrun
      · intro q
        rw [hget q, h1get q, esSum_cons]
        have hrs : rowSum omap k q.2 = colSum pairs q.2 := by
          unfold rowSum glookupOrNil
          rw [hglk]
          rfl
        rw [hrs]
        by_cases hqi : q.1 = i
        · simp [hqi]
          ring
        · have : ¬i = q.1 := fun h2 => hqi h2.symm
          simp [hqi, this]

theorem matmul_dim_error {A B : SparseMatrix} (h : A.cols ≠ B.rows) :
    A.matmul B = .error .notAligned := by
  unfold SparseMatrix.matmul
  rw [if_pos h]

theorem matmul_spec {A B : SparseMatrix} (hA : StoreInv A) (hB : StoreInv B)
    (hd : A.cols = B.rows) :
    ∃ C, A.matmul B = .ok C ∧ C.rows = A.rows ∧ C.cols = B.cols ∧ StoreInv C ∧
      ∀ q : Key, dget C.data q =
        (A.data.map (fun e => if e.1.1 = q.1 then e.2 * dget B.data (e.1.2, q.2) else 0)).sum := by
  have hrows : ∀ e ∈ A.data, 0 ≤ e.1.1 ∧ e.1.1 <
      (⟨A.rows, B.cols, []⟩ : SparseMatrix).rows := by
    intro e he
    exact ⟨(hA.1 e he).1, (hA.1 e he).2.1⟩
  have hcols : ∀ k : Int, ∀ p ∈ glookupOrNil (groupRows B.data) k,
      0 ≤ p.1 ∧ p.1 < (⟨A.rows, B.cols, []⟩ : SparseMatrix).cols := by
    intro k p hp
    rw [glookupOrNil_groupRows] at hp
    obtain ⟨e, he, rfl⟩ := List.mem_map.mp hp
    have := hB.1 e (List.mem_of_mem_filter he)
    exact ⟨this.2.2.1, this.2.2.2⟩
  obtain ⟨C, hrun, hr, hc, hinv, hget⟩ :=
    mulInto_spec A.data ⟨A.rows, B.cols, []⟩ (groupRows B.data) hrows hcols
      (storeInv_empty _ _)
  refine ⟨C, ?_, hr, hc, hinv, ?_⟩
  · unfold SparseMatrix.matmul
    rw [if_neg (by simp [hd])]
    exact hrun
  · intro q
    rw [hget q]
    show 0 + esSum (groupRows B.data) A.data q.1 q.2 = _
    rw [zero_add]
    unfold esSum
    simp only [rowSum_groupRows hB.2.2]

/-- The mathematical dot product of row `i` of `A` with column `j` of `B`,
summed over the shared dimension `0 ≤ k < A.cols`. -/
def dot (A B : SparseMatrix) (i j : Int) : Int :=
  ∑ k ∈ Finset.Icc 0 (A.cols - 1), A.get i k * B.get k j

/-- Exchanging the sum over stored entries of a row for the full sum over a
finite index set: off-entry terms vanish. -/
theorem rowContrib_eq_sum {g : Int → Int} :
    ∀ (d : List Entry), KeysNodup d → ∀ (i : Int) (S : Finset Int),
    (∀ e ∈ d, e.1.1 = i → e.1.2 ∈ S) →
    (d.map (fun e => if e.1.1 = i then e.2 * g e.1.2 else 0)).sum =
      ∑ k ∈ S, dget d (i, k) * g k := by
  intro d
  induction d with
  | nil =>
    intro _ i S _
    simp [dget, dlookup]
  | cons e t ih =>
    intro hnd i S hS
    obtain ⟨⟨i0, k0⟩, v⟩ := e
    unfold KeysNodup at hnd
    simp only [List.map_cons, List.nodup_cons] at hnd
    have hnd_t : KeysNodup t := hnd.2
    by_cases hi : i0 = i
    · subst hi
      have hk0S : k0 ∈ S := hS ((i0, k0), v) (List.mem_cons_self _ _) rfl
      have hsplit : ∀ f : Int → Int, ∑ k ∈ S, f k = f k0 + ∑ k ∈ S.erase k0, f k :=
        fun f => (Finset.add_sum_erase S f hk0S).symm
      rw [List.map_cons, List.sum_cons,
        ih hnd_t i0 S (fun e he hei => hS e (List.mem_cons_of_mem _ he) hei)]
      rw [hsplit (fun k => dget (((i0, k0), v) :: t) (i0, k) * g k),
        hsplit (fun k => dget t (i0, k) * g k)]
      have hhead : dget (((i0, k0), v) :: t) (i0, k0) = v := by
        rw [dget_cons]
        simp
      have htail0 : dget t (i0, k0) = 0 := by
        apply dget_of_not_mem
        exact hnd.1
      have hrest : ∀ k ∈ S.erase k0,
          dget (((i0, k0), v) :: t) (i0, k) * g k = dget t (i0, k) * g k := by
        intro k hk
        have hne : k ≠ k0 := Finset.ne_of_mem_erase hk
        rw [dget_cons]
        have : ¬((i0, k0) : Key) = (i0, k) := by
          intro h2
          exact hne ((congrArg Prod.snd h2).symm)
        simp [this]
      rw [Finset.sum_congr rfl hrest, hhead, htail0]
      simp
    · rw [List.map_cons, List.sum_cons]
      have hall : ∀ k : Int, dget (((i0, k0), v) :: t) (i, k) = dget t (i, k) := by
        intro k
        rw [dget_cons]
        have : ¬((i0, k0) : Key) = (i, k) := by
          intro h2
          exact hi (congrArg Prod.fst h2)
        simp [this]
      rw [ih hnd_t i S (fun e he hei => hS e (List.mem_cons_of_mem _ he) hei)]
      simp only [hall]
      simp [hi]

/-- Full functional correctness of `__matmul__` in the aligned case. -/
theorem matmul_dot {A B : SparseMatrix} (hA : StoreInv A) (hB : StoreInv B)
    (hd : A.cols = B.rows) :
    ∃ C, A.matmul B = .ok C ∧ C.rows = A.rows ∧ C.cols = B.cols ∧ StoreInv C ∧
      ∀ i j : Int, C.get i j = dot A B i j := by
  obtain ⟨C, hrun, hr, hc, hinv, hget⟩ := matmul_spec hA hB hd
  refine ⟨C, hrun, hr, hc, hinv, ?_⟩
  intro i j
  show dget C.data (i, j) = dot A B i j
  rw [hget (i, j)]
  unfold dot
  have h1 := rowContrib_eq_sum (g := fun k => B.get k j) A.data hA.2.2 i
    (Finset.Icc 0 (A.cols - 1))
    (fun e he _ => by
      have := hA.1 e he
      rw [Finset.mem_Icc]
      omega)
  exact h1

/-! ### Text layer: Python strings as `List Char`

`load_from` and `__str__` manipulate strings.  Python's `int(s)` is modelled
by `parseInt` (surrounding whitespace tolerated, optional sign, decimal
digits; exotic forms such as underscore grouping or non-ASCII digits are not
modelled), and the f-string rendering of an integer by `intStr`. -/

/-- Whitespace for `str.strip()` (the ASCII whitespace Python strips). -/
def isSpaceCh (c : Char) : Bool :=
  c.toNat = 32 || c.toNat = 9 || c.toNat = 10 || c.toNat = 13 ||
    c.toNat = 11 || c.toNat = 12

/-- ASCII decimal digit. -/
def isDigitCh (c : Char) : Bool :=
  decide (48 ≤ c.toNat) && decide (c.toNat ≤ 57)

/-- The character of a decimal digit. -/
def digitChar (d : Nat) : Char := Char.ofNat (48 + d)

/-- Decimal digits of `n`, most significant first (fuel-driven; `fuel ≥ n`
always suffices, and `n = 0` yields `[]`). -/
def natStrAux : Nat → Nat → List Char
  | 0, _ => []
  | fuel + 1, n =>
    if n = 0 then [] else natStrAux fuel (n / 10) ++ [digitChar (n % 10)]

/-- Decimal rendering of a natural number, as Python's `str`. -/
def natStr (n : Nat) : List Char := if n = 0 then ['0'] else natStrAux n n

/-- Python's `str(i)` for an integer `i` (f-string interpolation). -/
def intStr (i : Int) : List Char :=
  if i < 0 then '-' :: natStr (-i).toNat else natStr i.toNat

/-- `str.strip()`: drop whitespace from both ends. -/
def strip (l : List Char) : List Char :=
  ((l.dropWhile isSpaceCh).reverse.dropWhile isSpaceCh).reverse

/-- Digit-string value: the accumulator loop underlying decimal parsing. -/
def digitsVal (l : List Char) : Nat :=
  l.foldl (fun a c => a * 10 + (c.toNat - 48)) 0

/-- Parse an unsigned decimal numeral: nonempty, all digits. -/
def parseNat (l : List Char) : Option Nat :=
  if l.isEmpty then none
  else if l.all isDigitCh then some (digitsVal l) else none

/-- Python's `int(s)` on a string: strip, optional sign, decimal digits. -/
def parseInt (l : List Char) : Option Int :=
  match strip l with
  | [] => none
  | c :: rest =>
    if c = '-' then (parseNat rest).map (fun n => -(n : Int))
    else if c = '+' then (parseNat rest).map (fun n => (n : Int))
    else (parseNat (c :: rest)).map (fun n => (n : Int))

/-- Python's `s.split(sep)` for a one-character separator: always returns at
least one (possibly empty) piece. -/
def splitOnCh (sep : Char) : List Char → List (List Char)
  | [] => [[]]
  | c :: t =>
    match splitOnCh sep t with
    | [] => [[]]
    | h :: r => if c = sep then [] :: h :: r else (c :: h) :: r

/-- Python's `s.startswith(p)`. -/
def startsWith : List Char → List Char → Bool
  | [], _ => true
  | _, [] => false
  | p :: ps, c :: cs => p = c && startsWith ps cs

/-- The literal `"rows="`. -/
def rowsTag : List Char := ['r', 'o', 'w', 's', '=']

/-- The literal `"cols="`. -/
def colsTag : List Char := ['c', 'o', 'l', 's', '=']

/-- `int(line.split("=")[1])` of a header line, `none` when the index or the
conversion raises (both are caught and re-raised as the header error). -/
def headerField (l : List Char) : Option Int :=
  match splitOnCh '=' l with
  | _ :: f :: _ => parseInt f
  | _ => none

/-- One body line: `entry.startswith("(") and entry.endswith(")")`, then
`map(lambda x: int(x.strip()), entry[1:-1].split(","))` unpacked into three
values; `none` covers every failure the source catches on that line. -/
def parseEntry (l : List Char) : Option (Int × Int × Int) :=
  match l with
  | [] => none
  | c :: rest =>
    if c = '(' then
      if rest.getLast? = some ')' then
        match (splitOnCh ',' rest.dropLast).map parseInt with
        | [some r, some c, some v] => some (r, c, v)
        | _ => none
      else none
    else none

/-- The entry loop of `load_from` (`for entry in lines[2:]`): parse, bounds
check against the declared extents, then `matrix.set(r, c, v)`. -/
def loadEntries (M : SparseMatrix) : List (List Char) → Except MatrixError SparseMatrix
  | [] => .ok M
  | line :: rest =>
    match parseEntry line with
    | none => .error .invalidFormat
    | some (r, c, v) =>
      if 0 ≤ r ∧ r < M.rows ∧ 0 ≤ c ∧ c < M.cols then
        match M.set r c v with
        | .ok M' => loadEntries M' rest
        | .error e => .error e
      else .error .invalidFormat

/-- `lines = [line.strip() for line in f if line.strip()]`. -/
def stripLines (ls : List (List Char)) : List (List Char) :=
  (ls.map strip).filter (fun l => !l.isEmpty)

/-- `SparseMatrix.load_from` after the file has been read and split into
lines: header checks, then the entry loop. -/
def loadLines (input : List (List Char)) : Except MatrixError SparseMatrix :=
  match stripLines input with
  | l0 :: l1 :: rest =>
    if startsWith rowsTag l0 && startsWith colsTag l1 then
      match headerField l0, headerField l1 with
      | some nr, some nc => loadEntries ⟨nr, nc, []⟩ rest
      | _, _ => .error .wrongFormat
    else .error .wrongFormat
  | _ => .error .wrongFormat

/-- `load_from` on the text content of the file (file opening itself — the
`Failed to open file` path — is outside the model). -/
def load_from (text : List Char) : Except MatrixError SparseMatrix :=
  loadLines (splitOnCh '\n' text)

/-- Python tuple comparison on `(row, col)` keys, as used by `sorted`. -/
def keyLe (a b : Key) : Prop := a.1 < b.1 ∨ (a.1 = b.1 ∧ a.2 ≤ b.2)

instance : DecidableRel keyLe := fun a b => by
  unfold keyLe; infer_instance

instance : IsTotal Key keyLe :=
  ⟨fun a b => by unfold keyLe; omega⟩

instance : IsTrans Key keyLe :=
  ⟨fun a b c h1 h2 => by unfold keyLe at h1 h2 ⊢; omega⟩

/-- `sorted(self.data)`: the dict keys in ascending lexicographic order. -/
def sortKeys (ks : List Key) : List Key := List.insertionSort keyLe ks

/-- `f"({r}, {c}, {self.data[(r, c)]})"`. -/
def entryLine (r c v : Int) : List Char :=
  '(' :: (intStr r ++ ',' :: ' ' :: (intStr c ++ ',' :: ' ' :: (intStr v ++ [')'])))

/-- The lines of `__str__`: both header lines, then one line per stored
entry in sorted key order. -/
def strLines (M : SparseMatrix) : List (List Char) :=
  (rowsTag ++ intStr M.rows) :: (colsTag ++ intStr M.cols) ::
    (sortKeys (M.data.map Prod.fst)).map (fun k => entryLine k.1 k.2 (dget M.data k))

/-- `"\n".join(lines)`. -/
def joinLines : List (List Char) → List Char
  | [] => []
  | [l] => l
  | l :: ls => l ++ '\n' :: joinLines ls

/-- `str(self)`: the serialized text of a matrix. -/
def serialize (M : SparseMatrix) : List Char := joinLines (strLines M)

/-! ### Decimal rendering and parsing round-trip -/

theorem digitChar_toNat {d : Nat} (h : d < 10) : (digitChar d).toNat = 48 + d := by
  interval_cases d <;> rfl

theorem natStrAux_fuel : ∀ (f1 : Nat), ∀ {f2 n : Nat}, n ≤ f1 → n ≤ f2 →
    natStrAux f1 n = natStrAux f2 n := by
  intro f1
  induction f1 with
  | zero =>
    intro f2 n h1 _
    obtain rfl : n = 0 := Nat.le_zero.mp h1
    cases f2 <;> simp [natStrAux]
  | succ f ih =>
    intro f2 n h1 h2
    by_cases hn : n = 0
    · subst hn
      cases f2 <;> simp [natStrAux]
    · obtain ⟨f2', rfl⟩ : ∃ k, f2 = k + 1 := by
        cases f2 with
        | zero => omega
        | succ k => exact ⟨k, rfl⟩
      have hd : n / 10 ≤ f := by omega
      have hd2 : n / 10 ≤ f2' := by omega
      simp only [natStrAux, if_neg hn]
      rw [ih hd hd2]

theorem natStrAux_digits : ∀ (fuel n : Nat), ∀ c ∈ natStrAux fuel n,
    48 ≤ c.toNat ∧ c.toNat ≤ 57 := by
  intro fuel
  induction fuel with
  | zero => intro n c hc; simp [natStrAux] at hc
  | succ f ih =>
    intro n c hc
    by_cases hn : n = 0
    · simp [natStrAux, hn] at hc
    · simp only [natStrAux, if_neg hn, List.mem_append, List.mem_singleton] at hc
      rcases hc with hc | hc
      · exact ih (n / 10) c hc
      · have hm : n % 10 < 10 := Nat.mod_lt _ (by omega)
        rw [hc, digitChar_toNat hm]
        omega

theorem natStrAux_ne_nil {fuel n : Nat} (hn : n ≠ 0) (hf : n ≤ fuel) :
    natStrAux fuel n ≠ [] := by
  obtain ⟨f, rfl⟩ : ∃ k, fuel = k + 1 := by
    cases fuel with
    | zero => omega
    | succ k => exact ⟨k, rfl⟩
  simp [natStrAux, hn]

theorem natStrAux_foldl : ∀ (fuel : Nat), ∀ {n : Nat}, n ≤ fuel → ∀ (a : Nat),
    (natStrAux fuel n).foldl (fun a c => a * 10 + (c.toNat - 48)) a =
      a * 10 ^ (natStrAux fuel n).length + n := by
  intro fuel
  induction fuel with
  | zero =>
    intro n h a
    obtain rfl : n = 0 := Nat.le_zero.mp h
    simp [natStrAux]
  | succ f ih =>
    intro n h a
    by_cases hn : n = 0
    · subst hn; simp [natStrAux]
    · have hd : n / 10 ≤ f := by omega
      simp only [natStrAux, if_neg hn]
      rw [List.foldl_append]
      simp only [List.foldl_cons, List.foldl_nil]
      rw [ih hd a]
      have hm : n % 10 < 10 := Nat.mod_lt _ (by omega)
      rw [digitChar_toNat hm]
      simp only [List.length_append, List.length_singleton]
      have hmod : 48 + n % 10 - 48 = n % 10 := by omega
      rw [hmod]
      have hpow : 10 ^ ((natStrAux f (n / 10)).length + 1) =
          10 ^ (natStrAux f (n / 10)).length * 10 := by
        rw [pow_succ]
      rw [hpow]
      have := Nat.div_add_mod n 10
      ring_nf
      omega

theorem natStr_ne_nil (n : Nat) : natStr n ≠ [] := by
  unfold natStr
  by_cases hn : n = 0
  · simp [hn]
  · rw [if_neg hn]
    exact natStrAux_ne_nil hn le_rfl

theorem natStr_digits : ∀ (n : Nat), ∀ c ∈ natStr n, 48 ≤ c.toNat ∧ c.toNat ≤ 57 := by
  intro n c hc
  unfold natStr at hc
  by_cases hn : n = 0
  · simp [hn] at hc
    rw [hc]
    simp
  · rw [if_neg hn] at hc
    exact natStrAux_digits n n c hc

theorem digitsVal_natStr (n : Nat) : digitsVal (natStr n) = n := by
  unfold natStr digitsVal
  by_cases hn : n = 0
  · simp [hn]
  · rw [if_neg hn]
    rw [natStrAux_foldl n le_rfl 0]
    simp

theorem parseNat_natStr (n : Nat) : parseNat (natStr n) = some n := by
  unfold parseNat
  rw [if_neg (by simp [List.isEmpty_iff, natStr_ne_nil n])]
  rw [if_pos, digitsVal_natStr]
  rw [List.all_eq_true]
  intro c hc
  have := natStr_digits n c hc
  simp only [isDigitCh, Bool.and_eq_true, decide_eq_true_eq]
  omega

theorem dropWhile_eq_self_of_all {l : List Char}
    (h : ∀ c ∈ l, isSpaceCh c = false) : l.dropWhile isSpaceCh = l := by
  cases l with
  | nil => rfl
  | cons c t =>
    rw [List.dropWhile_cons, h c (List.mem_cons_self _ _)]
    simp

theorem strip_eq_self_of_all {l : List Char}
    (h : ∀ c ∈ l, isSpaceCh c = false) : strip l = l := by
  unfold strip
  rw [dropWhile_eq_self_of_all h,
    dropWhile_eq_self_of_all (fun c hc => h c (List.mem_reverse.mp hc)),
    List.reverse_reverse]

theorem strip_cons_space (l : List Char) : strip (' ' :: l) = strip l := by
  unfold strip
  rw [List.dropWhile_cons]
  simp [isSpaceCh]

/-- Every character of `intStr i` is the minus sign or a decimal digit. -/
theorem intStr_chars (i : Int) : ∀ c ∈ intStr i,
    c.toNat = 45 ∨ (48 ≤ c.toNat ∧ c.toNat ≤ 57) := by
  intro c hc
  unfold intStr at hc
  by_cases h : i < 0
  · rw [if_pos h] at hc
    rcases List.mem_cons.mp hc with hc | hc
    · left; rw [hc]; rfl
    · right; exact natStr_digits _ c hc
  · rw [if_neg h] at hc
    right; exact natStr_digits _ c hc

theorem intStr_not_space (i : Int) : ∀ c ∈ intStr i, isSpaceCh c = false := by
  intro c hc
  have := intStr_chars i c hc
  simp only [isSpaceCh, Bool.or_eq_false_iff, decide_eq_false_iff_not]
  simp only [Bool.or_eq_true, decide_eq_true_eq] at this ⊢
  omega

theorem parseInt_eq_of_strip {l : List Char} {c : Char} {rest : List Char}
    (h : strip l = c :: rest) :
    parseInt l = if c = '-' then (parseNat rest).map (fun n => -(n : Int))
      else if c = '+' then (parseNat rest).map (fun n => (n : Int))
      else (parseNat (c :: rest)).map (fun n => (n : Int)) := by
  unfold parseInt
  rw [h]

/-- Python's `int` inverts the f-string rendering of any integer. -/
theorem parseInt_intStr (i : Int) : parseInt (intStr i) = some i := by
  by_cases h : i < 0
  · have hstr : intStr i = '-' :: natStr (-i).toNat := by
      unfold intStr; rw [if_pos h]
    rw [parseInt_eq_of_strip (by rw [strip_eq_self_of_all (intStr_not_space i), hstr])]
    rw [if_pos rfl]
    rw [parseNat_natStr]
    have : ((-i).toNat : Int) = -i := Int.toNat_of_nonneg (by omega)
    simp [this]
  · have hstr : intStr i = natStr i.toNat := by unfold intStr; rw [if_neg h]
    obtain ⟨c, rest, heq⟩ := List.exists_cons_of_ne_nil (natStr_ne_nil i.toNat)
    have hcd : 48 ≤ c.toNat ∧ c.toNat ≤ 57 :=
      natStr_digits i.toNat c (heq ▸ List.mem_cons_self _ _)
    have hminus : ¬c = '-' := by
      intro h2
      rw [h2] at hcd
      simp at hcd
    have hplus : ¬c = '+' := by
      intro h2
      rw [h2] at hcd
      simp at hcd
    rw [parseInt_eq_of_strip (by rw [strip_eq_self_of_all (intStr_not_space i), hstr, heq])]
    rw [if_neg hminus, if_neg hplus, ← heq, parseNat_natStr]
    have : (i.toNat : Int) = i := Int.toNat_of_nonneg (by omega)
    simp [this]

theorem splitOnCh_cons (sep c : Char) (t : List Char) :
    splitOnCh sep (c :: t) =
      match splitOnCh sep t with
      | [] => [[]]
      | h :: r => if c = sep then [] :: h :: r else (c :: h) :: r := rfl

theorem splitOnCh_ne_nil (sep : Char) (l : List Char) : splitOnCh sep l ≠ [] := by
  cases l with
  | nil => simp [splitOnCh]
  | cons c t =>
    unfold splitOnCh
    cases h : splitOnCh sep t with
    | nil => simp
    | cons h r => by_cases hc : c = sep <;> simp [hc]

theorem splitOnCh_of_not_mem {sep : Char} {l : List Char} (h : sep ∉ l) :
    splitOnCh sep l = [l] := by
  induction l with
  | nil => rfl
  | cons c t ih =>
    simp only [List.mem_cons, not_or] at h
    unfold splitOnCh
    rw [ih h.2]
    have : ¬c = sep := fun h2 => h.1 h2.symm
    simp [this]

theorem splitOnCh_append {sep : Char} {a : List Char} (rest : List Char)
    (h : sep ∉ a) :
    splitOnCh sep (a ++ sep :: rest) = a :: splitOnCh sep rest := by
  induction a with
  | nil =>
    show splitOnCh sep (sep :: rest) = [] :: splitOnCh sep rest
    rw [splitOnCh_cons]
    cases hs : splitOnCh sep rest with
    | nil => exact absurd hs (splitOnCh_ne_nil sep rest)
    | cons x r => simp
  | cons c t ih =>
    simp only [List.mem_cons, not_or] at h
    show splitOnCh sep (c :: (t ++ sep :: rest)) = (c :: t) :: splitOnCh sep rest
    rw [splitOnCh_cons, ih h.2]
    have : ¬c = sep := fun h2 => h.1 h2.symm
    simp [this]

theorem startsWith_append (p x : List Char) : startsWith p (p ++ x) = true := by
  induction p with
  | nil => simp [startsWith]
  | cons c t ih => simpa [startsWith] using ih

theorem joinLines_split {ls : List (List Char)} (hne : ls ≠ [])
    (h : ∀ l ∈ ls, ('\n' : Char) ∉ l) :
    splitOnCh '\n' (joinLines ls) = ls := by
  induction ls with
  | nil => exact absurd rfl hne
  | cons l t ih =>
    cases t with
    | nil =>
      show splitOnCh '\n' l = [l]
      exact splitOnCh_of_not_mem (h l (List.mem_cons_self _ _))
    | cons l2 t2 =>
      show splitOnCh '\n' (l ++ '\n' :: joinLines (l2 :: t2)) = l :: l2 :: t2
      rw [splitOnCh_append _ (h l (List.mem_cons_self _ _))]
      rw [ih (by simp) (fun x hx => h x (List.mem_cons_of_mem _ hx))]

theorem not_mem_intStr {c : Char} (i : Int)
    (h : ¬(c.toNat = 45 ∨ (48 ≤ c.toNat ∧ c.toNat ≤ 57))) : c ∉ intStr i :=
  fun hm => h (intStr_chars i c hm)

theorem intStr_ne_nil (i : Int) : intStr i ≠ [] := by
  unfold intStr
  by_cases h : i < 0
  · simp [h]
  · rw [if_neg h]
    exact natStr_ne_nil _

/-- Parsing a header line produced by `__str__`. -/
theorem headerField_tag (t : List Char) (i : Int) (ht : ('=' : Char) ∉ t) :
    headerField (t ++ '=' :: intStr i) = some i := by
  unfold headerField
  rw [splitOnCh_append _ ht, splitOnCh_of_not_mem (not_mem_intStr i (by decide))]
  exact parseInt_intStr i

theorem parseInt_cons_space (l : List Char) : parseInt (' ' :: l) = parseInt l := by
  unfold parseInt
  rw [strip_cons_space]

/-- The inner text of an entry line, between the brackets. -/
def entryInner (r c v : Int) : List Char :=
  intStr r ++ ',' :: ' ' :: (intStr c ++ ',' :: ' ' :: intStr v)

theorem entryLine_eq (r c v : Int) :
    entryLine r c v = '(' :: (entryInner r c v ++ [')']) := by
  unfold entryLine entryInner
  simp

theorem splitOnCh_entryInner (r c v : Int) :
    splitOnCh ',' (entryInner r c v) = [intStr r, ' ' :: intStr c, ' ' :: intStr v] := by
  unfold entryInner
  rw [splitOnCh_append _ (not_mem_intStr r (by decide))]
  rw [show (' ' :: (intStr c ++ ',' :: ' ' :: intStr v)) =
    (' ' :: intStr c) ++ ',' :: (' ' :: intStr v) by simp]
  rw [splitOnCh_append]
  · rw [splitOnCh_of_not_mem]
    simp only [List.mem_cons, not_or]
    exact ⟨by decide, not_mem_intStr v (by decide)⟩
  · simp only [List.mem_cons, not_or]
    exact ⟨by decide, not_mem_intStr c (by decide)⟩

theorem parseEntry_cons (c : Char) (rest : List Char) :
    parseEntry (c :: rest) =
      if c = '(' then
        if rest.getLast? = some ')' then
          match (splitOnCh ',' rest.dropLast).map parseInt with
          | [some r, some c, some v] => some (r, c, v)
          | _ => none
        else none
      else none := rfl

/-- The body-line parser inverts the f-string that `__str__` emits. -/
theorem parseEntry_entryLine (r c v : Int) :
    parseEntry (entryLine r c v) = some (r, c, v) := by
  rw [entryLine_eq, parseEntry_cons, if_pos rfl]
  rw [List.getLast?_concat, List.dropLast_concat]
  rw [if_pos rfl, splitOnCh_entryInner]
  rw [List.map_cons, List.map_cons, List.map_cons, List.map_nil]
  rw [parseInt_intStr, parseInt_cons_space, parseInt_intStr,
    parseInt_cons_space, parseInt_intStr]

theorem strip_concat {c0 c1 : Char} (mid : List Char)
    (h0 : isSpaceCh c0 = false) (h1 : isSpaceCh c1 = false) :
    strip (c0 :: (mid ++ [c1])) = c0 :: (mid ++ [c1]) := by
  unfold strip
  rw [List.dropWhile_cons, h0]
  simp only [Bool.false_eq_true, if_false]
  rw [show (c0 :: (mid ++ [c1])).reverse = c1 :: (mid.reverse ++ [c0]) by simp]
  rw [List.dropWhile_cons, h1]
  simp

theorem strip_tag_intStr {t0 : Char} (h0 : isSpaceCh t0 = false)
    (tr : List Char) (i : Int) :
    strip (t0 :: (tr ++ intStr i)) = t0 :: (tr ++ intStr i) := by
  have hne : intStr i ≠ [] := intStr_ne_nil i
  have hsplit : (intStr i).dropLast ++ [(intStr i).getLast hne] = intStr i :=
    List.dropLast_append_getLast hne
  have hlast : isSpaceCh ((intStr i).getLast hne) = false :=
    intStr_not_space i _ (List.getLast_mem hne)
  rw [show t0 :: (tr ++ intStr i) =
      t0 :: ((tr ++ (intStr i).dropLast) ++ [(intStr i).getLast hne]) by
    rw [List.append_assoc, hsplit]]
  exact strip_concat _ h0 hlast

theorem newline_not_mem_entryLine (r c v : Int) : ('\n' : Char) ∉ entryLine r c v := by
  intro hm
  rw [entryLine_eq] at hm
  rcases List.mem_cons.mp hm with h | h
  · exact absurd h (by decide)
  rcases List.mem_append.mp h with h | h
  · unfold entryInner at h
    rcases List.mem_append.mp h with h | h
    · exact not_mem_intStr r (by decide) h
    rcases List.mem_cons.mp h with h | h
    · exact absurd h (by decide)
    rcases List.mem_cons.mp h with h | h
    · exact absurd h (by decide)
    rcases List.mem_append.mp h with h | h
    · exact not_mem_intStr c (by decide) h
    rcases List.mem_cons.mp h with h | h
    · exact absurd h (by decide)
    rcases List.mem_cons.mp h with h | h
    · exact absurd h (by decide)
    · exact not_mem_intStr v (by decide) h
  · rw [List.mem_singleton] at h
    exact absurd h (by decide)

theorem newline_not_mem_header {t : List Char} (ht : ('\n' : Char) ∉ t) (i : Int) :
    ('\n' : Char) ∉ t ++ intStr i := by
  intro hm
  rcases List.mem_append.mp hm with h | h
  · exact ht h
  · exact not_mem_intStr i (by decide) h

theorem stripLines_eq_self {ls : List (List Char)}
    (h : ∀ l ∈ ls, strip l = l ∧ l ≠ []) : stripLines ls = ls := by
  induction ls with
  | nil => rfl
  | cons l t ih =>
    have hl := h l (List.mem_cons_self _ _)
    unfold stripLines
    rw [List.map_cons, hl.1]
    rw [List.filter_cons_of_pos (by simp [List.isEmpty_iff, hl.2])]
    have := ih (fun x hx => h x (List.mem_cons_of_mem _ hx))
    unfold stripLines at this
    rw [this]

/-- Every line `__str__` emits survives the strip-and-filter pass unchanged
and holds no newline. -/
theorem strLines_facts (M : SparseMatrix) :
    ∀ l ∈ strLines M, (strip l = l ∧ l ≠ []) ∧ ('\n' : Char) ∉ l := by
  intro l hl
  unfold strLines at hl
  rcases List.mem_cons.mp hl with h | h
  · subst h
    refine ⟨⟨?_, by simp [rowsTag]⟩, newline_not_mem_header (by decide) _⟩
    exact strip_tag_intStr (by decide) ['o', 'w', 's', '='] M.rows
  rcases List.mem_cons.mp h with h | h
  · subst h
    refine ⟨⟨?_, by simp [colsTag]⟩, newline_not_mem_header (by decide) _⟩
    exact strip_tag_intStr (by decide) ['o', 'l', 's', '='] M.cols
  · obtain ⟨k, _, rfl⟩ := List.mem_map.mp h
    refine ⟨⟨?_, by rw [entryLine_eq]; simp⟩, newline_not_mem_entryLine _ _ _⟩
    rw [entryLine_eq]
    exact strip_concat _ (by decide) (by decide)

theorem loadLines_eq {input : List (List Char)} {l0 l1 : List Char}
    {rest : List (List Char)} (h : stripLines input = l0 :: l1 :: rest) :
    loadLines input =
      if startsWith rowsTag l0 && startsWith colsTag l1 then
        match headerField l0, headerField l1 with
        | some nr, some nc => loadEntries ⟨nr, nc, []⟩ rest
        | _, _ => .error .wrongFormat
      else .error .wrongFormat := by
  unfold loadLines
  rw [h]

/-- On lines that are f-string entry renderings, the load loop is exactly
the copy loop of the entries. -/
theorem loadEntries_map : ∀ (entries : List Entry) (M : SparseMatrix),
    (∀ e ∈ entries, 0 ≤ e.1.1 ∧ e.1.1 < M.rows ∧ 0 ≤ e.1.2 ∧ e.1.2 < M.cols) →
    loadEntries M (entries.map (fun e => entryLine e.1.1 e.1.2 e.2)) =
      copyInto M entries := by
  intro entries
  induction entries with
  | nil => intro M _; rfl
  | cons e rest ih =>
    intro M hb
    obtain ⟨⟨r, c⟩, v⟩ := e
    have hbe := hb ((r, c), v) (List.mem_cons_self _ _)
    have hin : M.InB r c := ⟨hbe.1, hbe.2.1, hbe.2.2.1, hbe.2.2.2⟩
    have hset : M.set r c v = .ok ⟨M.rows, M.cols, dset M.data (r, c) v⟩ := set_ok hin
    rw [List.map_cons]
    show loadEntries M (entryLine r c v :: _) = copyInto M (((r, c), v) :: rest)
    unfold loadEntries copyInto
    rw [parseEntry_entryLine]
    show (if 0 ≤ r ∧ r < M.rows ∧ 0 ≤ c ∧ c < M.cols then
        match M.set r c v with
        | Except.ok M' => loadEntries M' (rest.map (fun e => entryLine e.1.1 e.1.2 e.2))
        | Except.error e => Except.error e
      else Except.error MatrixError.invalidFormat) =
      (M.set r c v).bind (fun t => copyInto t rest)
    rw [if_pos hbe, hset]
    show loadEntries ⟨M.rows, M.cols, dset M.data (r, c) v⟩ _ =
      copyInto ⟨M.rows, M.cols, dset M.data (r, c) v⟩ rest
    exact ih _ (fun e he => hb e (List.mem_cons_of_mem _ he))

theorem dlookup_map_pair (f : Key → Int) : ∀ (ks : List Key) (q : Key),
    dlookup (ks.map (fun k => (k, f k))) q = if q ∈ ks then some (f q) else none := by
  intro ks
  induction ks with
  | nil => intro q; simp [dlookup]
  | cons k t ih =>
    intro q
    rw [List.map_cons]
    show (if k = q then some (f k) else dlookup (t.map _) q) = _
    by_cases h : k = q
    · subst h
      simp
    · rw [if_neg h, ih q]
      have : ¬q = k := fun h2 => h h2.symm
      simp [this]

/-! ### `sorted(self.data)` -/

theorem sortKeys_perm (ks : List Key) : List.Perm (sortKeys ks) ks :=
  List.perm_insertionSort keyLe ks

theorem sortKeys_sorted (ks : List Key) : List.Sorted keyLe (sortKeys ks) :=
  List.sorted_insertionSort keyLe ks

/-- On duplicate-free keys the sort is strictly increasing: ascending row,
then ascending column. -/
theorem sortKeys_strict {ks : List Key} (h : ks.Nodup) :
    (sortKeys ks).Pairwise (fun a b : Key => a.1 < b.1 ∨ (a.1 = b.1 ∧ a.2 < b.2)) := by
  have hs : (sortKeys ks).Pairwise keyLe := sortKeys_sorted ks
  have hnd : (sortKeys ks).Nodup := ((sortKeys_perm ks).nodup_iff).mpr h
  refine (hs.and hnd).imp ?_
  rintro a b ⟨h1, h2⟩
  unfold keyLe at h1
  rcases h1 with h1 | ⟨h1, h1'⟩
  · exact Or.inl h1
  · refine Or.inr ⟨h1, lt_of_le_of_ne h1' (fun heq => h2 ?_)⟩
    obtain ⟨a1, a2⟩ := a
    obtain ⟨b1, b2⟩ := b
    rw [show a1 = b1 from h1, show a2 = b2 from heq]

/-- Round trip: deserializing the serialized text of a valid matrix succeeds
and rebuilds the same extents and the same entry set. -/
theorem load_serialize_spec {M : SparseMatrix} (h : Valid M) :
    ∃ M', load_from (serialize M) = .ok M' ∧ M'.rows = M.rows ∧ M'.cols = M.cols ∧
      StoreInv M' ∧ (∀ e : Entry, e ∈ M'.data ↔ e ∈ M.data) := by
  obtain ⟨hr0, hc0, hb, hnz, hnd⟩ := h
  set ks := M.data.map Prod.fst with hks
  set entries := (sortKeys ks).map (fun k => (k, dget M.data k)) with hentries
  have hlineseq : (sortKeys ks).map (fun k => entryLine k.1 k.2 (dget M.data k)) =
      entries.map (fun e => entryLine e.1.1 e.1.2 e.2) := by
    rw [hentries, List.map_map]
    rfl
  have hload : load_from (serialize M) =
      loadEntries ⟨M.rows, M.cols, []⟩ (entries.map (fun e => entryLine e.1.1 e.1.2 e.2)) := by
    unfold load_from serialize
    rw [joinLines_split (by unfold strLines; simp)
      (fun l hl => (strLines_facts M l hl).2)]
    rw [loadLines_eq (show stripLines (strLines M) =
      (rowsTag ++ intStr M.rows) :: (colsTag ++ intStr M.cols) ::
        ((sortKeys ks).map (fun k => entryLine k.1 k.2 (dget M.data k))) from by
      rw [stripLines_eq_self (fun l hl => (strLines_facts M l hl).1)]
      rfl)]
    rw [startsWith_append, startsWith_append]
    simp only [Bool.and_self, if_true]
    rw [show rowsTag ++ intStr M.rows = ['r', 'o', 'w', 's'] ++ '=' :: intStr M.rows from rfl,
      headerField_tag ['r', 'o', 'w', 's'] M.rows (by decide)]
    rw [show colsTag ++ intStr M.cols = ['c', 'o', 'l', 's'] ++ '=' :: intStr M.cols from rfl,
      headerField_tag ['c', 'o', 'l', 's'] M.cols (by decide)]
    rw [hlineseq]
  have hbound : ∀ e ∈ entries, 0 ≤ e.1.1 ∧ e.1.1 < M.rows ∧ 0 ≤ e.1.2 ∧ e.1.2 < M.cols := by
    intro e he
    rw [hentries] at he
    obtain ⟨k, hk, rfl⟩ := List.mem_map.mp he
    have hk2 : k ∈ ks := ((sortKeys_perm ks).mem_iff).mp hk
    rw [hks] at hk2
    obtain ⟨e0, he0, rfl⟩ := List.mem_map.mp hk2
    exact hb e0 he0
  have hkeys_entries : entries.map Prod.fst = sortKeys ks := by
    rw [hentries, List.map_map]
    exact List.map_id _
  have hnd_entries : KeysNodup entries := by
    unfold KeysNodup
    rw [hkeys_entries]
    exact ((sortKeys_perm ks).nodup_iff).mpr hnd
  obtain ⟨M', hrun, hrows, hcols, hinv, hget⟩ :=
    copyInto_spec entries ⟨M.rows, M.cols, []⟩ hbound hnd_entries (storeInv_empty _ _)
  have hgetM : ∀ q : Key, dget M'.data q = dget M.data q := by
    intro q
    rw [hget q, hkeys_entries]
    by_cases hq : q ∈ sortKeys ks
    · rw [if_pos hq]
      show dget entries q = dget M.data q
      unfold dget
      rw [show dlookup entries q = some (dget M.data q) from by
        rw [hentries]
        exact (dlookup_map_pair (fun k => dget M.data k) (sortKeys ks) q).trans (if_pos hq)]
      rfl
    · rw [if_neg hq]
      have hq2 : q ∉ ks := fun h2 => hq (((sortKeys_perm ks).mem_iff).mpr h2)
      rw [hks] at hq2
      rw [dget_of_not_mem hq2]
      rfl
  refine ⟨M', by
      rw [hload, loadEntries_map entries ⟨M.rows, M.cols, []⟩ hbound]
      exact hrun,
    hrows, hcols, hinv, ?_⟩
  exact entries_ext hinv.2.2 hnd hinv.2.1 hnz hgetM

theorem loadEntries_cons_none {M : SparseMatrix} {line : List Char}
    {rest : List (List Char)} (hp : parseEntry line = none) :
    loadEntries M (line :: rest) = .error .invalidFormat := by
  conv_lhs => unfold loadEntries
  rw [hp]

theorem loadEntries_cons_some {M : SparseMatrix} {line : List Char}
    {rest : List (List Char)} {r c v : Int} (hp : parseEntry line = some (r, c, v)) :
    loadEntries M (line :: rest) =
      if 0 ≤ r ∧ r < M.rows ∧ 0 ≤ c ∧ c < M.cols then
        match M.set r c v with
        | .ok M' => loadEntries M' rest
        | .error e => .error e
      else .error .invalidFormat := by
  conv_lhs => unfold loadEntries
  rw [hp]

/-- The body loop can only succeed or fail with the body-line error: the
header error is never produced there, and the `set` bounds error is shielded
by the loop's own bounds check. -/
theorem loadEntries_ne_wrongFormat : ∀ (ls : List (List Char)) (M : SparseMatrix),
    loadEntries M ls ≠ .error .wrongFormat := by
  intro ls
  induction ls with
  | nil =>
    intro M h
    exact absurd h (by simp [loadEntries])
  | cons l t ih =>
    intro M h
    cases hp : parseEntry l with
    | none =>
      rw [loadEntries_cons_none hp] at h
      simp at h
    | some rcv =>
      obtain ⟨r, c, v⟩ := rcv
      rw [loadEntries_cons_some hp] at h
      by_cases hbnd : 0 ≤ r ∧ r < M.rows ∧ 0 ≤ c ∧ c < M.cols
      · rw [if_pos hbnd, set_ok hbnd] at h
        exact ih _ h
      · rw [if_neg hbnd] at h
        simp at h

/-- The verdict of the header phase (spelled out from the source checks):
fewer than two surviving lines, a missing literal tag, or a first
`=`-separated field that `int` rejects. -/
def HeaderBad (input : List (List Char)) : Prop :=
  match stripLines input with
  | l0 :: l1 :: _ =>
    ¬(startsWith rowsTag l0 = true ∧ startsWith colsTag l1 = true ∧
      (headerField l0).isSome = true ∧ (headerField l1).isSome = true)
  | _ => True

instance (input : List (List Char)) : Decidable (HeaderBad input) := by
  unfold HeaderBad
  cases stripLines input with
  | nil => exact .isTrue trivial
  | cons l0 t =>
    cases t with
    | nil => exact .isTrue trivial
    | cons l1 t2 => infer_instance

theorem headerBad_cons {input : List (List Char)} {l0 l1 : List Char}
    {rest : List (List Char)} (hs : stripLines input = l0 :: l1 :: rest) :
    HeaderBad input ↔
      ¬(startsWith rowsTag l0 = true ∧ startsWith colsTag l1 = true ∧
        (headerField l0).isSome = true ∧ (headerField l1).isSome = true) := by
  unfold HeaderBad
  rw [hs]

/-- `ValueError("Input file has wrong format")` is raised exactly for the
header deviations of `HeaderBad` — never by the body loop. -/
theorem loadLines_wrongFormat_iff (input : List (List Char)) :
    loadLines input = .error .wrongFormat ↔ HeaderBad input := by
  cases hs : stripLines input with
  | nil =>
    have hL : loadLines input = .error .wrongFormat := by
      unfold loadLines
      rw [hs]
    have hH : HeaderBad input := by
      unfold HeaderBad
      rw [hs]
      exact trivial
    simp [hL, hH]
  | cons l0 t =>
    cases t with
    | nil =>
      have hL : loadLines input = .error .wrongFormat := by
        unfold loadLines
        rw [hs]
      have hH : HeaderBad input := by
        unfold HeaderBad
        rw [hs]
        exact trivial
      simp [hL, hH]
    | cons l1 rest =>
      rw [loadLines_eq hs, headerBad_cons hs]
      by_cases h1 : startsWith rowsTag l0 = true
      · by_cases h2 : startsWith colsTag l1 = true
        · rw [if_pos (by rw [h1, h2]; rfl)]
          cases hf0 : headerField l0 with
          | none => simp [hf0, h1, h2]
          | some n0 =>
            cases hf1 : headerField l1 with
            | none => simp [hf0, hf1, h1, h2]
            | some n1 =>
              simp only [hf0, hf1, h1, h2, Option.isSome_some]
              constructor
              · intro h
                exact absurd h (loadEntries_ne_wrongFormat rest ⟨n0, n1, []⟩)
              · intro h
                exact absurd ⟨trivial, trivial, trivial, trivial⟩ h
        · rw [if_neg (by simp [h2])]
          simp [h2]
      · rw [if_neg (by simp [h1])]
        simp [h1]

/-- A good pair of header lines always reaches the body loop with the
declared extents — whatever integers they carry, negative included. -/
theorem loadLines_headers (n m : Int) (body : List (List Char))
    (hbody : ∀ l ∈ body, strip l = l ∧ l ≠ []) :
    loadLines ((rowsTag ++ intStr n) :: (colsTag ++ intStr m) :: body) =
      loadEntries ⟨n, m, []⟩ body := by
  have hstrip : stripLines ((rowsTag ++ intStr n) :: (colsTag ++ intStr m) :: body) =
      (rowsTag ++ intStr n) :: (colsTag ++ intStr m) :: body := by
    apply stripLines_eq_self
    intro l hl
    rcases List.mem_cons.mp hl with h | h
    · subst h
      exact ⟨strip_tag_intStr (by decide) ['o', 'w', 's', '='] n, by simp [rowsTag]⟩
    rcases List.mem_cons.mp h with h | h
    · subst h
      exact ⟨strip_tag_intStr (by decide) ['o', 'l', 's', '='] m, by simp [colsTag]⟩
    · exact hbody l h
  rw [loadLines_eq hstrip]
  rw [startsWith_append, startsWith_append]
  simp only [Bool.and_self, if_true]
  rw [show rowsTag ++ intStr n = ['r', 'o', 'w', 's'] ++ '=' :: intStr n from rfl,
    headerField_tag ['r', 'o', 'w', 's'] n (by decide)]
  rw [show colsTag ++ intStr m = ['c', 'o', 'l', 's'] ++ '=' :: intStr m from rfl,
    headerField_tag ['c', 'o', 'l', 's'] m (by decide)]

/-! ### Object-identity layer for the frame property

Python objects live on a heap; `result = SparseMatrix(...)` allocates a new
object and every `result.set(...)` of the arithmetic methods mutates only
that object.  To state that the operands are never mutated, the same loops
are repeated against an explicit heap — a list of `SparseMatrix` values
indexed by allocation order — and proved equal to the pure loops acting on
a freshly appended cell, which leaves every pre-existing cell untouched. -/

abbrev Heap := List SparseMatrix

/-- The value of the heap cell `i` (out-of-range reads never occur in the
statements below; they default to an empty 0×0 matrix). -/
def hread (h : Heap) (i : Nat) : SparseMatrix := h.getD i ⟨0, 0, []⟩

/-- `<cell i>.set(r, c, v)`: mutate one heap cell in place. -/
def hset (h : Heap) (i : Nat) (r c v : Int) : Except MatrixError Heap :=
  match (hread h i).set r c v with
  | .ok M' => .ok (h.set i M')
  | .error e => .error e

/-- The copy loop of `__add__`/`__sub__` writing through the heap. -/
def hCopyInto (i : Nat) : Heap → List Entry → Except MatrixError Heap
  | h, [] => .ok h
  | h, ((r, c), v) :: rest => do
      let h' ← hset h i r c v
      hCopyInto i h' rest

/-- The accumulation loop of `__add__` writing through the heap. -/
def hAddInto (i : Nat) : Heap → List Entry → Except MatrixError Heap
  | h, [] => .ok h
  | h, ((r, c), v) :: rest => do
      let h' ← hset h i r c ((hread h i).get r c + v)
      hAddInto i h' rest

/-- The accumulation loop of `__sub__` writing through the heap. -/
def hSubInto (i : Nat) : Heap → List Entry → Except MatrixError Heap
  | h, [] => .ok h
  | h, ((r, c), v) :: rest => do
      let h' ← hset h i r c ((hread h i).get r c - v)
      hSubInto i h' rest

/-- The inner loop of `__matmul__` writing through the heap. -/
def hAccumRow (idx : Nat) (i v1 : Int) : Heap → List (Int × Int) → Except MatrixError Heap
  | h, [] => .ok h
  | h, (j, v2) :: rest => do
      let h' ← hset h idx i j ((hread h idx).get i j + v1 * v2)
      hAccumRow idx i v1 h' rest

/-- The outer loop of `__matmul__` writing through the heap. -/
def hMulInto (omap : List (Int × List (Int × Int))) (idx : Nat) :
    Heap → List Entry → Except MatrixError Heap
  | h, [] => .ok h
  | h, ((i, k), v1) :: rest =>
      match glookup omap k with
      | none => hMulInto omap idx h rest
      | some pairs => do
          let h' ← hAccumRow idx i v1 h pairs
          hMulInto omap idx h' rest

/-- `A + B` on the heap: `A` and `B` are the cells at `a` and `b`, the
result is allocated as a fresh cell. -/
def heapAdd (h : Heap) (a b : Nat) : Except MatrixError (Heap × Nat) :=
  if (hread h a).rows ≠ (hread h b).rows ∨ (hread h a).cols ≠ (hread h b).cols then
    .error .dimensionMismatch
  else do
    let h2 ← hCopyInto h.length
      (h ++ [⟨(hread h a).rows, (hread h a).cols, []⟩]) (hread h a).data
    let h3 ← hAddInto h.length h2 (hread h b).data
    .ok (h3, h.length)

/-- `A - B` on the heap. -/
def heapSub (h : Heap) (a b : Nat) : Except MatrixError (Heap × Nat) :=
  if (hread h a).rows ≠ (hread h b).rows ∨ (hread h a).cols ≠ (hread h b).cols then
    .error .dimensionMismatch
  else do
    let h2 ← hCopyInto h.length
      (h ++ [⟨(hread h a).rows, (hread h a).cols, []⟩]) (hread h a).data
    let h3 ← hSubInto h.length h2 (hread h b).data
    .ok (h3, h.length)

/-- `A @ B` on the heap (`other_map` is a local temporary, not a heap cell). -/
def heapMatmul (h : Heap) (a b : Nat) : Except MatrixError (Heap × Nat) :=
  if (hread h a).cols ≠ (hread h b).rows then .error .notAligned
  else do
    let h2 ← hMulInto (groupRows (hread h b).data) h.length
      (h ++ [⟨(hread h a).rows, (hread h b).cols, []⟩]) (hread h a).data
    .ok (h2, h.length)

theorem hread_append_self : ∀ (h : Heap) (M : SparseMatrix),
    hread (h ++ [M]) h.length = M
  | [], _ => rfl
  | _ :: t, M => hread_append_self t M

theorem hread_append_lt : ∀ (h : Heap) (M : SparseMatrix) (j : Nat),
    j < h.length → hread (h ++ [M]) j = hread h j
  | [], _, j, hj => absurd hj (by simp)
  | _ :: _, _, 0, _ => rfl
  | _ :: t, M, j + 1, hj => hread_append_lt t M j (by simpa using hj)

theorem listSet_append : ∀ (h : Heap) (M N : SparseMatrix),
    (h ++ [M]).set h.length N = h ++ [N]
  | [], _, _ => rfl
  | x :: t, M, N => congrArg (x :: ·) (listSet_append t M N)

/-- Writing to the fresh cell equals the pure `set` on that cell's value. -/
theorem hset_eq (h : Heap) (M : SparseMatrix) (r c v : Int) :
    hset (h ++ [M]) h.length r c v = (M.set r c v).map (fun N => h ++ [N]) := by
  unfold hset
  rw [hread_append_self]
  cases hM : M.set r c v with
  | ok N =>
    show Except.ok ((h ++ [M]).set h.length N) = _
    rw [listSet_append]
    rfl
  | error e => rfl

theorem hCopyInto_eq : ∀ (es : List Entry) (h : Heap) (M : SparseMatrix),
    hCopyInto h.length (h ++ [M]) es = (copyInto M es).map (fun C => h ++ [C]) := by
  intro es
  induction es with
  | nil => intro h M; rfl
  | cons e rest ih =>
    intro h M
    obtain ⟨⟨r, c⟩, v⟩ := e
    show (hset (h ++ [M]) h.length r c v).bind (fun h' => hCopyInto h.length h' rest) =
      ((M.set r c v).bind (fun t => copyInto t rest)).map (fun C => h ++ [C])
    rw [hset_eq]
    cases hM : M.set r c v with
    | ok N => exact ih h N
    | error e => rfl

theorem hAddInto_eq : ∀ (es : List Entry) (h : Heap) (M : SparseMatrix),
    hAddInto h.length (h ++ [M]) es = (addInto M es).map (fun C => h ++ [C]) := by
  intro es
  induction es with
  | nil => intro h M; rfl
  | cons e rest ih =>
    intro h M
    obtain ⟨⟨r, c⟩, v⟩ := e
    show (hset (h ++ [M]) h.length r c ((hread (h ++ [M]) h.length).get r c + v)).bind
        (fun h' => hAddInto h.length h' rest) =
      ((M.set r c (M.get r c + v)).bind (fun t => addInto t rest)).map (fun C => h ++ [C])
    rw [hread_append_self, hset_eq]
    cases hM : M.set r c (M.get r c + v) with
    | ok N => exact ih h N
    | error e => rfl

theorem hSubInto_eq : ∀ (es : List Entry) (h : Heap) (M : SparseMatrix),
    hSubInto h.length (h ++ [M]) es = (subInto M es).map (fun C => h ++ [C]) := by
  intro es
  induction es with
  | nil => intro h M; rfl
  | cons e rest ih =>
    intro h M
    obtain ⟨⟨r, c⟩, v⟩ := e
    show (hset (h ++ [M]) h.length r c ((hread (h ++ [M]) h.length).get r c - v)).bind
        (fun h' => hSubInto h.length h' rest) =
      ((M.set r c (M.get r c - v)).bind (fun t => subInto t rest)).map (fun C => h ++ [C])
    rw [hread_append_self, hset_eq]
    cases hM : M.set r c (M.get r c - v) with
    | ok N => exact ih h N
    | error e => rfl

theorem hAccumRow_eq : ∀ (pairs : List (Int × Int)) (h : Heap) (M : SparseMatrix)
    (i v1 : Int),
    hAccumRow h.length i v1 (h ++ [M]) pairs =
      (accumRow M i v1 pairs).map (fun C => h ++ [C]) := by
  intro pairs
  induction pairs with
  | nil => intro h M i v1; rfl
  | cons p rest ih =>
    intro h M i v1
    obtain ⟨j, v2⟩ := p
    show (hset (h ++ [M]) h.length i j ((hread (h ++ [M]) h.length).get i j + v1 * v2)).bind
        (fun h' => hAccumRow h.length i v1 h' rest) =
      ((M.set i j (M.get i j + v1 * v2)).bind (fun t => accumRow t i v1 rest)).map
        (fun C => h ++ [C])
    rw [hread_append_self, hset_eq]
    cases hM : M.set i j (M.get i j + v1 * v2) with
    | ok N => exact ih h N i v1
    | error e => rfl

theorem hMulInto_eq : ∀ (es : List Entry) (omap : List (Int × List (Int × Int)))
    (h : Heap) (M : SparseMatrix),
    hMulInto omap h.length (h ++ [M]) es = (mulInto omap M es).map (fun C => h ++ [C]) := by
  intro es
  induction es with
  | nil => intro omap h M; rfl
  | cons e rest ih =>
    intro omap h M
    obtain ⟨⟨i, k⟩, v1⟩ := e
    cases hg : glookup omap k with
    | none =>
      show hMulInto omap h.length (h ++ [M]) (((i, k), v1) :: rest) = _
      unfold hMulInto mulInto
      rw [hg]
      exact ih omap h M
    | some pairs =>
      show hMulInto omap h.length (h ++ [M]) (((i, k), v1) :: rest) = _
      unfold hMulInto mulInto
      rw [hg]
      show (hAccumRow h.length i v1 (h ++ [M]) pairs).bind
          (fun h' => hMulInto omap h.length h' rest) =
        ((accumRow M i v1 pairs).bind (fun t => mulInto omap t rest)).map (fun C => h ++ [C])
      rw [hAccumRow_eq]
      cases hM : accumRow M i v1 pairs with
      | ok N => exact ih omap h N
      | error e => rfl

/-- `heapAdd` allocates a fresh cell holding exactly the pure `__add__`
result; the input heap is extended, never rewritten. -/
theorem heapAdd_eq (h : Heap) (a b : Nat) :
    heapAdd h a b =
      ((hread h a).add (hread h b)).map (fun C => (h ++ [C], h.length)) := by
  unfold heapAdd SparseMatrix.add
  by_cases hd : (hread h a).rows ≠ (hread h b).rows ∨ (hread h a).cols ≠ (hread h b).cols
  · rw [if_pos hd, if_pos hd]
    rfl
  · rw [if_neg hd, if_neg hd]
    show (hCopyInto h.length (h ++ [⟨(hread h a).rows, (hread h a).cols, []⟩])
        (hread h a).data).bind _ = _
    rw [hCopyInto_eq]
    cases h1 : copyInto ⟨(hread h a).rows, (hread h a).cols, []⟩ (hread h a).data with
    | error e => rfl
    | ok T1 =>
      show (hAddInto h.length (h ++ [T1]) (hread h b).data).bind
          (fun h3 => Except.ok (h3, h.length)) = _
      rw [hAddInto_eq]
      show ((addInto T1 (hread h b).data).map (fun C => h ++ [C])).bind
          (fun h3 => Except.ok (h3, h.length)) =
        (addInto T1 (hread h b).data).map (fun C => (h ++ [C], h.length))
      cases h2 : addInto T1 (hread h b).data with
      | error e => rfl
      | ok C => rfl

theorem heapSub_eq (h : Heap) (a b : Nat) :
    heapSub h a b =
      ((hread h a).sub (hread h b)).map (fun C => (h ++ [C], h.length)) := by
  unfold heapSub SparseMatrix.sub
  by_cases hd : (hread h a).rows ≠ (hread h b).rows ∨ (hread h a).cols ≠ (hread h b).cols
  · rw [if_pos hd, if_pos hd]
    rfl
  · rw [if_neg hd, if_neg hd]
    show (hCopyInto h.length (h ++ [⟨(hread h a).rows, (hread h a).cols, []⟩])
        (hread h a).data).bind _ = _
    rw [hCopyInto_eq]
    cases h1 : copyInto ⟨(hread h a).rows, (hread h a).cols, []⟩ (hread h a).data with
    | error e => rfl
    | ok T1 =>
      show (hSubInto h.length (h ++ [T1]) (hread h b).data).bind
          (fun h3 => Except.ok (h3, h.length)) = _
      rw [hSubInto_eq]
      show ((subInto T1 (hread h b).data).map (fun C => h ++ [C])).bind
          (fun h3 => Except.ok (h3, h.length)) =
        (subInto T1 (hread h b).data).map (fun C => (h ++ [C], h.length))
      cases h2 : subInto T1 (hread h b).data with
      | error e => rfl
      | ok C => rfl

theorem heapMatmul_eq (h : Heap) (a b : Nat) :
    heapMatmul h a b =
      ((hread h a).matmul (hread h b)).map (fun C => (h ++ [C], h.length)) := by
  unfold heapMatmul SparseMatrix.matmul
  by_cases hd : (hread h a).cols ≠ (hread h b).rows
  · rw [if_pos hd, if_pos hd]
    rfl
  · rw [if_neg hd, if_neg hd]
    show (hMulInto (groupRows (hread h b).data) h.length
        (h ++ [⟨(hread h a).rows, (hread h b).cols, []⟩]) (hread h a).data).bind
        (fun h2 => Except.ok (h2, h.length)) = _
    rw [hMulInto_eq]
    show ((mulInto (groupRows (hread h b).data)
          ⟨(hread h a).rows, (hread h b).cols, []⟩ (hread h a).data).map
        (fun C => h ++ [C])).bind (fun h2 => Except.ok (h2, h.length)) =
      (mulInto (groupRows (hread h b).data)
          ⟨(hread h a).rows, (hread h b).cols, []⟩ (hread h a).data).map
        (fun C => (h ++ [C], h.length))
    cases h1 : mulInto (groupRows (hread h b).data)
        ⟨(hread h a).rows, (hread h b).cols, []⟩ (hread h a).data with
    | error e => rfl
    | ok C => rfl

/-! ### The sparsity invariant across every construction path -/

theorem set_nonzero {M M' : SparseMatrix} {r c v : Int}
    (hnz : EntriesNonzero M.data) (h : M.set r c v = .ok M') :
    EntriesNonzero M'.data := by
  obtain ⟨-, -, -, hd⟩ := set_spec h
  rw [hd]
  exact entriesNonzero_dset hnz _ _

theorem copyInto_nonzero : ∀ (es : List Entry) (T T' : SparseMatrix),
    EntriesNonzero T.data → copyInto T es = .ok T' → EntriesNonzero T'.data := by
  intro es
  induction es with
  | nil =>
    intro T T' hnz h
    obtain rfl : T = T' := Except.ok.inj (show (Except.ok T : Except MatrixError SparseMatrix) = .ok T' from h)
    exact hnz
  | cons e rest ih =>
    intro T T' hnz h
    obtain ⟨⟨r, c⟩, v⟩ := e
    rw [show copyInto T (((r, c), v) :: rest) =
      (T.set r c v).bind (fun t => copyInto t rest) from rfl] at h
    cases hs : T.set r c v with
    | error e =>
      rw [hs] at h
      exact Except.noConfusion
        (show (Except.error e : Except MatrixError SparseMatrix) = .ok T' from h)
    | ok T1 =>
      rw [hs] at h
      exact ih T1 T' (set_nonzero hnz hs) h

theorem addInto_nonzero : ∀ (es : List Entry) (T T' : SparseMatrix),
    EntriesNonzero T.data → addInto T es = .ok T' → EntriesNonzero T'.data := by
  intro es
  induction es with
  | nil =>
    intro T T' hnz h
    obtain rfl : T = T' := Except.ok.inj (show (Except.ok T : Except MatrixError SparseMatrix) = .ok T' from h)
    exact hnz
  | cons e rest ih =>
    intro T T' hnz h
    obtain ⟨⟨r, c⟩, v⟩ := e
    rw [show addInto T (((r, c), v) :: rest) =
      (T.set r c (T.get r c + v)).bind (fun t => addInto t rest) from rfl] at h
    cases hs : T.set r c (T.get r c + v) with
    | error e =>
      rw [hs] at h
      exact Except.noConfusion
        (show (Except.error e : Except MatrixError SparseMatrix) = .ok T' from h)
    | ok T1 =>
      rw [hs] at h
      exact ih T1 T' (set_nonzero hnz hs) h

theorem subInto_nonzero : ∀ (es : List Entry) (T T' : SparseMatrix),
    EntriesNonzero T.data → subInto T es = .ok T' → EntriesNonzero T'.data := by
  intro es
  induction es with
  | nil =>
    intro T T' hnz h
    obtain rfl : T = T' := Except.ok.inj (show (Except.ok T : Except MatrixError SparseMatrix) = .ok T' from h)
    exact hnz
  | cons e rest ih =>
    intro T T' hnz h
    obtain ⟨⟨r, c⟩, v⟩ := e
    rw [show subInto T (((r, c), v) :: rest) =
      (T.set r c (T.get r c - v)).bind (fun t => subInto t rest) from rfl] at h
    cases hs : T.set r c (T.get r c - v) with
    | error e =>
      rw [hs] at h
      exact Except.noConfusion
        (show (Except.error e : Except MatrixError SparseMatrix) = .ok T' from h)
    | ok T1 =>
      rw [hs] at h
      exact ih T1 T' (set_nonzero hnz hs) h

theorem accumRow_nonzero : ∀ (pairs : List (Int × Int)) (T T' : SparseMatrix)
    (i v1 : Int), EntriesNonzero T.data → accumRow T i v1 pairs = .ok T' →
    EntriesNonzero T'.data := by
  intro pairs
  induction pairs with
  | nil =>
    intro T T' i v1 hnz h
    obtain rfl : T = T' := Except.ok.inj (show (Except.ok T : Except MatrixError SparseMatrix) = .ok T' from h)
    exact hnz
  | cons p rest ih =>
    intro T T' i v1 hnz h
    obtain ⟨j, v2⟩ := p
    rw [show accumRow T i v1 ((j, v2) :: rest) =
      (T.set i j (T.get i j + v1 * v2)).bind (fun t => accumRow t i v1 rest) from rfl] at h
    cases hs : T.set i j (T.get i j + v1 * v2) with
    | error e =>
      rw [hs] at h
      exact Except.noConfusion
        (show (Except.error e : Except MatrixError SparseMatrix) = .ok T' from h)
    | ok T1 =>
      rw [hs] at h
      exact ih T1 T' i v1 (set_nonzero hnz hs) h

theorem mulInto_nonzero : ∀ (es : List Entry) (omap : List (Int × List (Int × Int)))
    (T T' : SparseMatrix), EntriesNonzero T.data → mulInto omap T es = .ok T' →
    EntriesNonzero T'.data := by
  intro es
  induction es with
  | nil =>
    intro omap T T' hnz h
    obtain rfl : T = T' := Except.ok.inj (show (Except.ok T : Except MatrixError SparseMatrix) = .ok T' from h)
    exact hnz
  | cons e rest ih =>
    intro omap T T' hnz h
    obtain ⟨⟨i, k⟩, v1⟩ := e
    cases hg : glookup omap k with
    | none =>
      rw [show mulInto omap T (((i, k), v1) :: rest) =
        match glookup omap k with
        | none => mulInto omap T rest
        | some pairs => (accumRow T i v1 pairs).bind (fun t => mulInto omap t rest)
        from rfl, hg] at h
      replace h : mulInto omap T rest = .ok T' := h
      exact ih omap T T' hnz h
    | some pairs =>
      rw [show mulInto omap T (((i, k), v1) :: rest) =
        match glookup omap k with
        | none => mulInto omap T rest
        | some pairs => (accumRow T i v1 pairs).bind (fun t => mulInto omap t rest)
        from rfl, hg] at h
      replace h : (accumRow T i v1 pairs).bind (fun t => mulInto omap t rest) = .ok T' := h
      cases ha : accumRow T i v1 pairs with
      | error e =>
        rw [ha] at h
        exact Except.noConfusion
          (show (Except.error e : Except MatrixError SparseMatrix) = .ok T' from h)
      | ok T1 =>
        rw [ha] at h
        exact ih omap T1 T' (accumRow_nonzero pairs T T1 i v1 hnz ha) h

theorem loadEntries_nonzero : ∀ (ls : List (List Char)) (M M' : SparseMatrix),
    EntriesNonzero M.data → loadEntries M ls = .ok M' → EntriesNonzero M'.data := by
  intro ls
  induction ls with
  | nil =>
    intro M M' hnz h
    obtain rfl : M = M' := Except.ok.inj (show (Except.ok M : Except MatrixError SparseMatrix) = .ok M' from h)
    exact hnz
  | cons l rest ih =>
    intro M M' hnz h
    cases hp : parseEntry l with
    | none =>
      rw [loadEntries_cons_none hp] at h
      exact Except.noConfusion h
    | some rcv =>
      obtain ⟨r, c, v⟩ := rcv
      rw [loadEntries_cons_some hp] at h
      by_cases hbnd : 0 ≤ r ∧ r < M.rows ∧ 0 ≤ c ∧ c < M.cols
      · rw [if_pos hbnd, set_ok hbnd] at h
        exact ih _ M' (set_nonzero hnz (set_ok hbnd)) h
      · rw [if_neg hbnd] at h
        exact Except.noConfusion h

theorem add_nonzero {A B C : SparseMatrix} (h : A.add B = .ok C) :
    EntriesNonzero C.data := by
  unfold SparseMatrix.add at h
  by_cases hd : A.rows ≠ B.rows ∨ A.cols ≠ B.cols
  · rw [if_pos hd] at h
    exact Except.noConfusion h
  · rw [if_neg hd] at h
    cases h1 : copyInto ⟨A.rows, A.cols, []⟩ A.data with
    | error e =>
      rw [show (do
          let r1 ← copyInto (⟨A.rows, A.cols, []⟩ : SparseMatrix) A.data
          addInto r1 B.data) = (copyInto (⟨A.rows, A.cols, []⟩ : SparseMatrix) A.data).bind
          (fun r1 => addInto r1 B.data) from rfl, h1] at h
      exact Except.noConfusion
        (show (Except.error e : Except MatrixError SparseMatrix) = .ok C from h)
    | ok T1 =>
      rw [show (do
          let r1 ← copyInto (⟨A.rows, A.cols, []⟩ : SparseMatrix) A.data
          addInto r1 B.data) = (copyInto (⟨A.rows, A.cols, []⟩ : SparseMatrix) A.data).bind
          (fun r1 => addInto r1 B.data) from rfl, h1] at h
      have hT1 : EntriesNonzero T1.data :=
        copyInto_nonzero A.data _ T1 (fun e he => absurd he (List.not_mem_nil e)) h1
      exact addInto_nonzero B.data T1 C hT1 h

theorem sub_nonzero {A B C : SparseMatrix} (h : A.sub B = .ok C) :
    EntriesNonzero C.data := by
  unfold SparseMatrix.sub at h
  by_cases hd : A.rows ≠ B.rows ∨ A.cols ≠ B.cols
  · rw [if_pos hd] at h
    exact Except.noConfusion h
  · rw [if_neg hd] at h
    cases h1 : copyInto ⟨A.rows, A.cols, []⟩ A.data with
    | error e =>
      rw [show (do
          let r1 ← copyInto (⟨A.rows, A.cols, []⟩ : SparseMatrix) A.data
          subInto r1 B.data) = (copyInto (⟨A.rows, A.cols, []⟩ : SparseMatrix) A.data).bind
          (fun r1 => subInto r1 B.data) from rfl, h1] at h
      exact Except.noConfusion
        (show (Except.error e : Except MatrixError SparseMatrix) = .ok C from h)
    | ok T1 =>
      rw [show (do
          let r1 ← copyInto (⟨A.rows, A.cols, []⟩ : SparseMatrix) A.data
          subInto r1 B.data) = (copyInto (⟨A.rows, A.cols, []⟩ : SparseMatrix) A.data).bind
          (fun r1 => subInto r1 B.data) from rfl, h1] at h
      have hT1 : EntriesNonzero T1.data :=
        copyInto_nonzero A.data _ T1 (fun e he => absurd he (List.not_mem_nil e)) h1
      exact subInto_nonzero B.data T1 C hT1 h

theorem matmul_nonzero {A B C : SparseMatrix} (h : A.matmul B = .ok C) :
    EntriesNonzero C.data := by
  unfold SparseMatrix.matmul at h
  by_cases hd : A.cols ≠ B.rows
  · rw [if_pos hd] at h
    exact Except.noConfusion h
  · rw [if_neg hd] at h
    exact mulInto_nonzero A.data _ _ C (fun e he => absurd he (List.not_mem_nil e)) h

theorem load_from_nonzero {text : List Char} {M : SparseMatrix}
    (h : load_from text = .ok M) : EntriesNonzero M.data := by
  unfold load_from loadLines at h
  cases hs : stripLines (splitOnCh '\n' text) with
  | nil =>
    rw [hs] at h
    exact Except.noConfusion
      (show (Except.error MatrixError.wrongFormat :
        Except MatrixError SparseMatrix) = .ok M from h)
  | cons l0 t =>
    cases t with
    | nil =>
      rw [hs] at h
      exact Except.noConfusion
        (show (Except.error MatrixError.wrongFormat :
          Except MatrixError SparseMatrix) = .ok M from h)
    | cons l1 rest =>
      rw [hs] at h
      replace h : (if (startsWith rowsTag l0 && startsWith colsTag l1) = true then
          match headerField l0, headerField l1 with
          | some nr, some nc => loadEntries ⟨nr, nc, []⟩ rest
          | _, _ => Except.error MatrixError.wrongFormat
        else Except.error MatrixError.wrongFormat) = Except.ok M := h
      by_cases hsw : (startsWith rowsTag l0 && startsWith colsTag l1) = true
      · rw [if_pos hsw] at h
        cases hf0 : headerField l0 with
        | none => rw [hf0] at h; simp at h
        | some n0 =>
          cases hf1 : headerField l1 with
          | none => rw [hf0, hf1] at h; simp at h
          | some n1 =>
            rw [hf0, hf1] at h
            replace h : loadEntries ⟨n0, n1, []⟩ rest = .ok M := h
            exact loadEntries_nonzero rest _ M
              (fun e he => absurd he (List.not_mem_nil e)) h
      · rw [if_neg hsw] at h
        exact Except.noConfusion h

/-- Modelled from the spec: "`get(r, c) -> value`: requires 0 ≤ r < rows and
0 ≤ c < cols, else fails with `IndexOutOfBounds`"; within bounds it returns
the stored value or 0.  The source's `get` performs no such check — this
definition exists only to exhibit that divergence. -/
def getAsSpecified (M : SparseMatrix) (row col : Int) : Except MatrixError Int :=
  if M.InB row col then .ok (dget M.data (row, col)) else .error .invalidIndex

/-! ### The claims -/

/-- C1: multiplication `A @ B` fails with `DimensionAlignmentMismatch`
(`ValueError("Matrix dimensions not aligned for multiplication")`) exactly
when `A.cols ≠ B.rows`; otherwise it returns a matrix of shape
`(A.rows, B.cols)` in which every coordinate holds the mathematical dot
product `∑ k, A.get i k * B.get k j` over the shared dimension — a `Finset`
sum, hence independent of the iteration order over either operand's
entries.  The concrete 1×2 by 2×1 scenario with value 39 is the witness. -/
theorem matmul_meets_dot_product_contract (A B : SparseMatrix)
    (hA : StoreInv A) (hB : StoreInv B) :
    (A.cols ≠ B.rows → A.matmul B = .error .notAligned) ∧
    (A.cols = B.rows → ∃ C, A.matmul B = .ok C ∧ C.rows = A.rows ∧
      C.cols = B.cols ∧ ∀ i j : Int, C.get i j = dot A B i j) := by
  refine ⟨fun hd => matmul_dim_error hd, fun hd => ?_⟩
  obtain ⟨C, h1, h2, h3, -, h5⟩ := matmul_dot hA hB hd
  exact ⟨C, h1, h2, h3, h5⟩

theorem matmul_meets_dot_product_contract_witness :
    ∃ C, (SparseMatrix.mk 1 2 [((0, 0), 3), ((0, 1), 4)]).matmul
        (SparseMatrix.mk 2 1 [((0, 0), 5), ((1, 0), 6)]) = .ok C ∧
      C.rows = 1 ∧ C.cols = 1 ∧ C.get 0 0 = 39 := by
  obtain ⟨C, h1, h2, h3, h4⟩ :=
    (matmul_meets_dot_product_contract
      (SparseMatrix.mk 1 2 [((0, 0), 3), ((0, 1), 4)])
      (SparseMatrix.mk 2 1 [((0, 0), 5), ((1, 0), 6)]) (by decide) (by decide)).2 rfl
  refine ⟨C, h1, h2, h3, ?_⟩
  rw [h4 0 0]
  decide

/-- C2: no operation leaves a zero-valued entry in the store: construction,
`set`, deserialization, addition, subtraction and multiplication all
produce stores whose every value is non-zero, and `set(r, c, 0)` at any
in-bounds coordinate — with or without a prior entry — leaves `get = 0`
and the coordinate absent from the stored keys. -/
theorem zero_values_never_stored :
    (∀ rows cols : Int, EntriesNonzero (SparseMatrix.mk rows cols []).data) ∧
    (∀ (M M' : SparseMatrix) (r c v : Int), EntriesNonzero M.data →
      M.set r c v = .ok M' → EntriesNonzero M'.data) ∧
    (∀ (text : List Char) (M : SparseMatrix), load_from text = .ok M →
      EntriesNonzero M.data) ∧
    (∀ A B C : SparseMatrix, A.add B = .ok C → EntriesNonzero C.data) ∧
    (∀ A B C : SparseMatrix, A.sub B = .ok C → EntriesNonzero C.data) ∧
    (∀ A B C : SparseMatrix, A.matmul B = .ok C → EntriesNonzero C.data) ∧
    (∀ (M : SparseMatrix) (r c : Int), KeysNodup M.data → M.InB r c →
      ∃ M', M.set r c 0 = .ok M' ∧ M'.get r c = 0 ∧
        (r, c) ∉ M'.data.map Prod.fst) := by
  refine ⟨?_, ?_, ?_, ?_, ?_, ?_, ?_⟩
  · intro rows cols e he
    exact absurd he (List.not_mem_nil e)
  · intro M M' r c v hnz h
    exact set_nonzero hnz h
  · intro text M h
    exact load_from_nonzero h
  · intro A B C h
    exact add_nonzero h
  · intro A B C h
    exact sub_nonzero h
  · intro A B C h
    exact matmul_nonzero h
  · intro M r c hnd hin
    refine ⟨_, set_ok hin, get_set_self hnd (set_ok hin), ?_⟩
    rw [← dlookup_eq_none]
    show dlookup (dset M.data (r, c) 0) (r, c) = none
    unfold dset
    rw [if_pos rfl]
    exact dlookup_derase_self hnd (r, c)

theorem zero_values_never_stored_witness :
    ∃ M', (SparseMatrix.mk 2 2 [((0, 0), 7)]).set 0 0 0 = .ok M' ∧
      M'.get 0 0 = 0 ∧ (0, 0) ∉ M'.data.map Prod.fst :=
  zero_values_never_stored.2.2.2.2.2.2 (SparseMatrix.mk 2 2 [((0, 0), 7)]) 0 0
    (by decide) (by decide)

/-- C3: for every valid matrix, deserializing the serialized text succeeds
and rebuilds the same `rows`, the same `cols` and exactly the same entry
set; and the key sequence that `__str__` renders (`sortKeys` of the stored
keys, one line per key) is strictly ascending by row, then by column. -/
theorem serialize_deserialize_roundtrip (M : SparseMatrix) (h : Valid M) :
    (∃ M', load_from (serialize M) = .ok M' ∧ M'.rows = M.rows ∧
      M'.cols = M.cols ∧ ∀ e : Entry, e ∈ M'.data ↔ e ∈ M.data) ∧
    (sortKeys (M.data.map Prod.fst)).Pairwise
      (fun a b : Key => a.1 < b.1 ∨ (a.1 = b.1 ∧ a.2 < b.2)) := by
  constructor
  · obtain ⟨M', h1, h2, h3, -, h5⟩ := load_serialize_spec h
    exact ⟨M', h1, h2, h3, h5⟩
  · exact sortKeys_strict h.2.2.2.2

theorem serialize_deserialize_roundtrip_witness :
    ∃ M', load_from (serialize (SparseMatrix.mk 2 2 [((1, 0), 5), ((0, 1), -3)])) =
        .ok M' ∧ M'.rows = 2 ∧ M'.cols = 2 ∧
      ((1, 0), (5 : Int)) ∈ M'.data ∧ ((0, 1), (-3 : Int)) ∈ M'.data := by
  obtain ⟨⟨M', h1, h2, h3, h4⟩, -⟩ :=
    serialize_deserialize_roundtrip
      (SparseMatrix.mk 2 2 [((1, 0), 5), ((0, 1), -3)]) (by decide)
  exact ⟨M', h1, h2, h3, (h4 _).mpr (by decide), (h4 _).mpr (by decide)⟩

/-- C4: `A + B` and `A - B` fail with `DimensionMismatch`
(`ValueError("Matrix dimensions must match")`) exactly when the shapes
differ (no partial result exists — the operation is a pure value);
otherwise each returns a fresh matrix of the same shape whose every
coordinate holds the pointwise sum (respectively difference), with
coordinates whose result is exactly zero absent from the store. -/
theorem add_sub_pointwise_contract (A B : SparseMatrix)
    (hA : StoreInv A) (hB : StoreInv B) :
    ((A.rows ≠ B.rows ∨ A.cols ≠ B.cols) →
      A.add B = .error .dimensionMismatch ∧ A.sub B = .error .dimensionMismatch) ∧
    (A.rows = B.rows → A.cols = B.cols →
      (∃ C, A.add B = .ok C ∧ C.rows = A.rows ∧ C.cols = A.cols ∧
        (∀ r c : Int, C.get r c = A.get r c + B.get r c) ∧
        ∀ r c : Int, A.get r c + B.get r c = 0 → (r, c) ∉ C.data.map Prod.fst) ∧
      (∃ C, A.sub B = .ok C ∧ C.rows = A.rows ∧ C.cols = A.cols ∧
        (∀ r c : Int, C.get r c = A.get r c - B.get r c) ∧
        ∀ r c : Int, A.get r c - B.get r c = 0 → (r, c) ∉ C.data.map Prod.fst)) := by
  refine ⟨fun hd => ⟨add_dim_error hd, sub_dim_error hd⟩, fun hr hc => ⟨?_, ?_⟩⟩
  · obtain ⟨C, h1, h2, h3, hinv, h5⟩ := add_spec hA hB hr hc
    refine ⟨C, h1, h2, h3, h5, fun r c hz => ?_⟩
    exact (dget_eq_zero_iff hinv.2.1 (r, c)).mp ((h5 r c).trans hz)
  · obtain ⟨C, h1, h2, h3, hinv, h5⟩ := sub_spec hA hB hr hc
    refine ⟨C, h1, h2, h3, h5, fun r c hz => ?_⟩
    exact (dget_eq_zero_iff hinv.2.1 (r, c)).mp ((h5 r c).trans hz)

theorem add_sub_pointwise_contract_witness :
    ∃ C, (SparseMatrix.mk 2 2 [((0, 0), 1), ((1, 1), 2)]).add
        (SparseMatrix.mk 2 2 [((0, 0), 1), ((1, 1), 1)]) = .ok C ∧
      C.rows = 2 ∧ C.cols = 2 ∧ C.get 0 0 = 2 ∧ C.get 1 1 = 3 := by
  obtain ⟨⟨C, h1, h2, h3, h4, -⟩, -⟩ :=
    (add_sub_pointwise_contract (SparseMatrix.mk 2 2 [((0, 0), 1), ((1, 1), 2)])
      (SparseMatrix.mk 2 2 [((0, 0), 1), ((1, 1), 1)]) (by decide) (by decide)).2 rfl rfl
  refine ⟨C, h1, h2, h3, ?_, ?_⟩
  · rw [h4 0 0]
    decide
  · rw [h4 1 1]
    decide

/-- Counterexample to C5 as stated: at coordinates (5, 5), outside a 1×1
matrix, the source's `get` returns 0 rather than failing with
`IndexOutOfBounds`; the spec-modelled bounds-checked variant fails exactly
as the claim demands, exhibiting the divergence at this concrete input. -/
theorem get_bounds_check_cex :
    SparseMatrix.get ⟨1, 1, []⟩ 5 5 = 0 ∧
      getAsSpecified ⟨1, 1, []⟩ 5 5 = .error .invalidIndex := by
  refine ⟨rfl, ?_⟩
  unfold getAsSpecified
  rw [if_neg (by decide)]

/-- C5 amended: `get` never fails — the source delegates straight to the
dict with default 0 and has no bounds check.  Within bounds it returns the
stored value, or 0 when no entry is stored; outside the extents it also
returns 0 (under the bounds invariant no entry can live there).  Bounds are
enforced only by `set`. -/
theorem get_total_contract (M : SparseMatrix) (r c : Int)
    (hb : InBoundsAll M.rows M.cols M.data) (hnd : KeysNodup M.data) :
    (¬M.InB r c → M.get r c = 0) ∧
    (∀ v : Int, ((r, c), v) ∈ M.data → M.get r c = v) ∧
    ((r, c) ∉ M.data.map Prod.fst → M.get r c = 0) := by
  refine ⟨?_, ?_, ?_⟩
  · intro hnb
    apply dget_of_not_mem
    intro hmem
    obtain ⟨e, he, hke⟩ := List.mem_map.mp hmem
    have h2 := hb e he
    have hr : e.1.1 = r := congrArg Prod.fst hke
    have hc : e.1.2 = c := congrArg Prod.snd hke
    exact hnb ⟨hr ▸ h2.1, hr ▸ h2.2.1, hc ▸ h2.2.2.1, hc ▸ h2.2.2.2⟩
  · intro v hv
    show dget M.data (r, c) = v
    unfold dget
    rw [mem_dlookup hnd hv]
    rfl
  · exact dget_of_not_mem

theorem get_total_contract_witness :
    SparseMatrix.get ⟨1, 1, []⟩ 5 5 = 0 :=
  (get_total_contract ⟨1, 1, []⟩ 5 5 (by decide) (by decide)).1 (by decide)

/-- Counterexample to C6 as stated: a negative integer after `rows=` does
not fail with MalformedHeader — the load succeeds and returns a matrix
whose rows extent is -1. -/
theorem negative_header_accepted_cex :
    loadLines ["rows=-1".toList, "cols=2".toList] = .ok ⟨-1, 2, []⟩ := rfl

/-- C6 amended: the first surviving line must start with the literal
`rows=` and the second with `cols=`, and the text between the first and
second `=` of each must parse as an integer — of either sign, negative
extents included, which are then stored as given.  Deserialization fails
with `ValueError("Input file has wrong format")` (MalformedHeader) exactly
for the remaining deviations: fewer than two surviving lines, a missing
prefix, or a field `int()` rejects — and for nothing the body loop does. -/
theorem header_error_exactly_headerBad (input : List (List Char)) (n m : Int) :
    (loadLines input = .error .wrongFormat ↔ HeaderBad input) ∧
    loadLines [rowsTag ++ intStr n, colsTag ++ intStr m] = .ok ⟨n, m, []⟩ := by
  refine ⟨loadLines_wrongFormat_iff input, ?_⟩
  rw [loadLines_headers n m [] (fun l hl => absurd hl (List.not_mem_nil l))]
  rfl

/-- Counterexample to C7 as stated: the out-of-bounds body line `(5, 0, 1)`
under a 3×3 header and the malformed body line `(1,2)` raise the very same
`ValueError("Invalid file format")` — the failure kinds are not distinct
in the code. -/
theorem entry_error_kinds_equal_cex :
    loadLines ["rows=3".toList, "cols=3".toList, "(5, 0, 1)".toList] =
        .error .invalidFormat ∧
      loadLines ["rows=3".toList, "cols=3".toList, "(1,2)".toList] =
        .error .invalidFormat := ⟨rfl, rfl⟩

/-- C7 amended: a parsed triple whose coordinates fall outside the declared
extents makes the whole load fail at parse time — before any matrix is
returned — but with `ValueError("Invalid file format")`, the same exception
type and message as a malformed entry, not a distinct failure kind. -/
theorem out_of_bounds_entry_fails_like_malformed (n m r c v : Int)
    (body : List (List Char)) (hbody : ∀ l ∈ body, strip l = l ∧ l ≠ [])
    (hout : ¬(0 ≤ r ∧ r < n ∧ 0 ≤ c ∧ c < m)) :
    loadLines ((rowsTag ++ intStr n) :: (colsTag ++ intStr m) ::
        entryLine r c v :: body) = .error .invalidFormat ∧
    (∀ (M : SparseMatrix) (l : List Char) (rest : List (List Char)),
      parseEntry l = none → loadEntries M (l :: rest) = .error .invalidFormat) := by
  constructor
  · rw [loadLines_headers n m (entryLine r c v :: body) ?hb]
    · rw [loadEntries_cons_some (parseEntry_entryLine r c v)]
      exact if_neg hout
    case hb =>
      intro l hl
      rcases List.mem_cons.mp hl with h | h
      · subst h
        refine ⟨?_, by rw [entryLine_eq]; simp⟩
        rw [entryLine_eq]
        exact strip_concat _ (by decide) (by decide)
      · exact hbody l h
  · intro M l rest hp
    exact loadEntries_cons_none hp

theorem out_of_bounds_entry_fails_like_malformed_witness :
    loadLines ((rowsTag ++ intStr 3) :: (colsTag ++ intStr 3) ::
        entryLine 5 0 1 :: []) = .error .invalidFormat :=
  (out_of_bounds_entry_fails_like_malformed 3 3 5 0 1 []
    (fun l hl => absurd hl (List.not_mem_nil l)) (by decide)).1

/-- C8: for operands of equal shape, `(A + B) - B` equals `A` exactly —
same dimensions and entry-for-entry identical stored set — and likewise
`(A - B) + B` equals `A` exactly. -/
theorem add_sub_roundtrip_exact (A B : SparseMatrix) (hA : StoreInv A)
    (hB : StoreInv B) (hr : A.rows = B.rows) (hc : A.cols = B.cols) :
    (∃ C D, A.add B = .ok C ∧ C.sub B = .ok D ∧ D.rows = A.rows ∧
      D.cols = A.cols ∧ ∀ e : Entry, e ∈ D.data ↔ e ∈ A.data) ∧
    (∃ C D, A.sub B = .ok C ∧ C.add B = .ok D ∧ D.rows = A.rows ∧
      D.cols = A.cols ∧ ∀ e : Entry, e ∈ D.data ↔ e ∈ A.data) := by
  constructor
  · obtain ⟨C, h1, h2, h3, hCinv, h5⟩ := add_spec hA hB hr hc
    obtain ⟨D, g1, g2, g3, hDinv, g5⟩ := sub_spec hCinv hB (h2.trans hr) (h3.trans hc)
    refine ⟨C, D, h1, g1, g2.trans h2, g3.trans h3, ?_⟩
    apply entries_ext hDinv.2.2 hA.2.2 hDinv.2.1 hA.2.1
    intro q
    calc dget D.data q = D.get q.1 q.2 := rfl
      _ = C.get q.1 q.2 - B.get q.1 q.2 := g5 q.1 q.2
      _ = (A.get q.1 q.2 + B.get q.1 q.2) - B.get q.1 q.2 := by rw [h5 q.1 q.2]
      _ = A.get q.1 q.2 := by ring
      _ = dget A.data q := rfl
  · obtain ⟨C, h1, h2, h3, hCinv, h5⟩ := sub_spec hA hB hr hc
    obtain ⟨D, g1, g2, g3, hDinv, g5⟩ := add_spec hCinv hB (h2.trans hr) (h3.trans hc)
    refine ⟨C, D, h1, g1, g2.trans h2, g3.trans h3, ?_⟩
    apply entries_ext hDinv.2.2 hA.2.2 hDinv.2.1 hA.2.1
    intro q
    calc dget D.data q = D.get q.1 q.2 := rfl
      _ = C.get q.1 q.2 + B.get q.1 q.2 := g5 q.1 q.2
      _ = (A.get q.1 q.2 - B.get q.1 q.2) + B.get q.1 q.2 := by rw [h5 q.1 q.2]
      _ = A.get q.1 q.2 := by ring
      _ = dget A.data q := rfl

theorem add_sub_roundtrip_exact_witness :
    ∃ C D, (SparseMatrix.mk 1 1 [((0, 0), 4)]).add
        (SparseMatrix.mk 1 1 [((0, 0), -4)]) = .ok C ∧
      C.sub (SparseMatrix.mk 1 1 [((0, 0), -4)]) = .ok D ∧
      D.rows = 1 ∧ D.cols = 1 ∧
      (((0, 0), (4 : Int)) ∈ D.data ↔ ((0, 0), (4 : Int)) ∈
        (SparseMatrix.mk 1 1 [((0, 0), 4)]).data) := by
  obtain ⟨⟨C, D, h1, h2, h3, h4, h5⟩, -⟩ :=
    add_sub_roundtrip_exact (SparseMatrix.mk 1 1 [((0, 0), 4)])
      (SparseMatrix.mk 1 1 [((0, 0), -4)]) (by decide) (by decide) rfl rfl
  exact ⟨C, D, h1, h2, h3, h4, h5 _⟩

/-- C9: the arithmetic methods never mutate their operands.  On the heap
model — where `result = SparseMatrix(...)` allocates a cell and every
`result.set(...)` writes only through that cell — each of `__add__`,
`__sub__` and `__matmul__` leaves every pre-existing cell, in particular
both operand cells, byte-for-byte unchanged, and returns a freshly
allocated index distinct from both operands holding exactly the pure
result.  On failure no heap is returned at all: the exception propagates
before any result object becomes visible. -/
theorem arithmetic_never_mutates_operands (h : Heap) (a b n : Nat) (h' : Heap) :
    (heapAdd h a b = .ok (h', n) →
      n = h.length ∧ (a < h.length → n ≠ a) ∧ (b < h.length → n ≠ b) ∧
      (∀ j, j < h.length → hread h' j = hread h j) ∧
      (hread h a).add (hread h b) = .ok (hread h' n)) ∧
    (heapSub h a b = .ok (h', n) →
      n = h.length ∧ (a < h.length → n ≠ a) ∧ (b < h.length → n ≠ b) ∧
      (∀ j, j < h.length → hread h' j = hread h j) ∧
      (hread h a).sub (hread h b) = .ok (hread h' n)) ∧
    (heapMatmul h a b = .ok (h', n) →
      n = h.length ∧ (a < h.length → n ≠ a) ∧ (b < h.length → n ≠ b) ∧
      (∀ j, j < h.length → hread h' j = hread h j) ∧
      (hread h a).matmul (hread h b) = .ok (hread h' n)) := by
  refine ⟨?_, ?_, ?_⟩
  · intro hh
    rw [heapAdd_eq] at hh
    cases hc : (hread h a).add (hread h b) with
    | error e =>
      rw [hc] at hh
      exact Except.noConfusion hh
    | ok C =>
      rw [hc] at hh
      obtain ⟨h1, h2⟩ := Prod.ext_iff.mp (Except.ok.inj hh)
      replace h1 : h ++ [C] = h' := h1
      replace h2 : h.length = n := h2
      refine ⟨h2.symm, fun ha2 => by omega, fun hb2 => by omega, ?_, ?_⟩
      · intro j hj
        rw [← h1]
        exact hread_append_lt h C j hj
      · rw [← h1, ← h2, hread_append_self]
  · intro hh
    rw [heapSub_eq] at hh
    cases hc : (hread h a).sub (hread h b) with
    | error e =>
      rw [hc] at hh
      exact Except.noConfusion hh
    | ok C =>
      rw [hc] at hh
      obtain ⟨h1, h2⟩ := Prod.ext_iff.mp (Except.ok.inj hh)
      replace h1 : h ++ [C] = h' := h1
      replace h2 : h.length = n := h2
      refine ⟨h2.symm, fun ha2 => by omega, fun hb2 => by omega, ?_, ?_⟩
      · intro j hj
        rw [← h1]
        exact hread_append_lt h C j hj
      · rw [← h1, ← h2, hread_append_self]
  · intro hh
    rw [heapMatmul_eq] at hh
    cases hc : (hread h a).matmul (hread h b) with
    | error e =>
      rw [hc] at hh
      exact Except.noConfusion hh
    | ok C =>
      rw [hc] at hh
      obtain ⟨h1, h2⟩ := Prod.ext_iff.mp (Except.ok.inj hh)
      replace h1 : h ++ [C] = h' := h1
      replace h2 : h.length = n := h2
      refine ⟨h2.symm, fun ha2 => by omega, fun hb2 => by omega, ?_, ?_⟩
      · intro j hj
        rw [← h1]
        exact hread_append_lt h C j hj
      · rw [← h1, ← h2, hread_append_self]

theorem arithmetic_never_mutates_operands_witness :
    hread [SparseMatrix.mk 1 1 [((0, 0), 2)], SparseMatrix.mk 1 1 [((0, 0), 3)],
        SparseMatrix.mk 1 1 [((0, 0), 5)]] 0 = SparseMatrix.mk 1 1 [((0, 0), 2)] ∧
    (SparseMatrix.mk 1 1 [((0, 0), 2)]).add (SparseMatrix.mk 1 1 [((0, 0), 3)]) =
      .ok (SparseMatrix.mk 1 1 [((0, 0), 5)]) := by
  obtain ⟨-, -, -, hframe, hres⟩ :=
    (arithmetic_never_mutates_operands
      [SparseMatrix.mk 1 1 [((0, 0), 2)], SparseMatrix.mk 1 1 [((0, 0), 3)]]
      0 1 2
      [SparseMatrix.mk 1 1 [((0, 0), 2)], SparseMatrix.mk 1 1 [((0, 0), 3)],
        SparseMatrix.mk 1 1 [((0, 0), 5)]]).1 rfl
  exact ⟨hframe 0 (by decide), hres⟩

/-- C10: implicit claim — when both operands satisfy the bounds invariant,
the `IndexError("Invalid matrix index")` branch inside `set` is unreachable
from the arithmetic engine: each operation either fails its own dimension
check (with exactly that error) or returns a result, and no other failure
can surface. -/
theorem engine_set_never_out_of_bounds (A B : SparseMatrix)
    (hA : StoreInv A) (hB : StoreInv B) :
    (∀ e, A.add B = .error e →
      e = .dimensionMismatch ∧ (A.rows ≠ B.rows ∨ A.cols ≠ B.cols)) ∧
    (∀ e, A.sub B = .error e →
      e = .dimensionMismatch ∧ (A.rows ≠ B.rows ∨ A.cols ≠ B.cols)) ∧
    (∀ e, A.matmul B = .error e → e = .notAligned ∧ A.cols ≠ B.rows) ∧
    (A.rows = B.rows → A.cols = B.cols → ∃ C, A.add B = .ok C) ∧
    (A.rows = B.rows → A.cols = B.cols → ∃ C, A.sub B = .ok C) ∧
    (A.cols = B.rows → ∃ C, A.matmul B = .ok C) := by
  refine ⟨?_, ?_, ?_, ?_, ?_, ?_⟩
  · intro e he
    by_cases hd : A.rows ≠ B.rows ∨ A.cols ≠ B.cols
    · rw [add_dim_error hd] at he
      exact ⟨(Except.error.inj he).symm, hd⟩
    · push_neg at hd
      obtain ⟨C, hC, -⟩ := add_spec hA hB hd.1 hd.2
      rw [hC] at he
      exact Except.noConfusion he
  · intro e he
    by_cases hd : A.rows ≠ B.rows ∨ A.cols ≠ B.cols
    · rw [sub_dim_error hd] at he
      exact ⟨(Except.error.inj he).symm, hd⟩
    · push_neg at hd
      obtain ⟨C, hC, -⟩ := sub_spec hA hB hd.1 hd.2
      rw [hC] at he
      exact Except.noConfusion he
  · intro e he
    by_cases hd : A.cols ≠ B.rows
    · rw [matmul_dim_error hd] at he
      exact ⟨(Except.error.inj he).symm, hd⟩
    · push_neg at hd
      obtain ⟨C, hC, -⟩ := matmul_spec hA hB hd
      rw [hC] at he
      exact Except.noConfusion he
  · intro hr hc
    obtain ⟨C, hC, -⟩ := add_spec hA hB hr hc
    exact ⟨C, hC⟩
  · intro hr hc
    obtain ⟨C, hC, -⟩ := sub_spec hA hB hr hc
    exact ⟨C, hC⟩
  · intro hd
    obtain ⟨C, hC, -⟩ := matmul_spec hA hB hd
    exact ⟨C, hC⟩

theorem engine_set_never_out_of_bounds_witness :
    ∃ C, (SparseMatrix.mk 1 2 [((0, 1), 4)]).matmul
      (SparseMatrix.mk 2 1 [((1, 0), 6)]) = .ok C :=
  (engine_set_never_out_of_bounds (SparseMatrix.mk 1 2 [((0, 1), 4)])
    (SparseMatrix.mk 2 1 [((1, 0), 6)]) (by decide) (by decide)).2.2.2.2.2 rfl

end SpMat
